import Mathlib

/-!
Verification of the `op8d_lexemizer` Rust-2018 lexemizer.

The Rust sources operate on `&str` values through byte offsets, using
`str::is_char_boundary`, `str::get` and byte slicing.  We embed the input
as a `List Nat` of bytes and mirror those primitives exactly.  All scanning
loops of the source strictly advance a byte position that is bounded by the
input length, so each loop is embedded as a structurally recursive function
over a fuel argument; every top-level entry point passes `orig.length + 1`
fuel, which is shown to be enough (fuel-exhaustion branches mirror the
corresponding loop-exit code of the source and are unreachable at that fuel).
-/

namespace Op8d

/-- The closed tag set from `lexeme.rs` (`enum LexemeKind`). -/
inductive LexemeKind where
  | CharacterByte
  | CharacterHex
  | CharacterPlain
  | CharacterUnicode
  | CommentDocInline
  | CommentDocMultiline
  | CommentInline
  | CommentMultiline
  | IdentifierFreeword
  | IdentifierKeyword
  | IdentifierOther
  | IdentifierStdType
  | NumberBinary
  | NumberHex
  | NumberOctal
  | NumberDecimal
  | Punctuation
  | StringByte
  | StringByteRaw
  | StringPlain
  | StringRaw
  | Undetected
  | Unexpected
  | Unidentifiable
  | WhitespaceTrimmable
  deriving DecidableEq, Repr

/-- `struct Lexeme` from `lexeme.rs`: kind, start byte offset (`chr`) and the
snippet, which in Rust is a borrowed slice of the input (here: its bytes). -/
structure Lexeme where
  kind : LexemeKind
  chr : Nat
  snippet : List Nat
  deriving DecidableEq, Repr

/-- The shared failure value `(LexemeKind::Undetected, 0)` of every detector. -/
def UNDETECTED : LexemeKind × Nat := (LexemeKind.Undetected, 0)

/-- UTF-8 encoding of one unicode scalar value (as produced by Rust for the
characters of a `&str`). -/
def encodeChar (n : Nat) : List Nat :=
  if n < 0x80 then [n]
  else if n < 0x800 then [0xC0 + n / 64, 0x80 + n % 64]
  else if n < 0x10000 then [0xE0 + n / 4096, 0x80 + n / 64 % 64, 0x80 + n % 64]
  else [0xF0 + n / 262144, 0x80 + n / 4096 % 64, 0x80 + n / 64 % 64, 0x80 + n % 64]

/-- The UTF-8 bytes of a list of characters. -/
def bytesOfChars (cs : List Char) : List Nat :=
  (cs.map fun c => encodeChar c.toNat).flatten

/-- The UTF-8 bytes of a Lean string; used to write concrete inputs. -/
def strBytes (s : String) : List Nat :=
  bytesOfChars s.data

/-- A byte list is the UTF-8 encoding of some character sequence.  This is the
invariant every Rust `&str` satisfies. -/
def Utf8Valid (s : List Nat) : Prop :=
  ∃ cs : List Char, s = bytesOfChars cs

/-- Rust's `str::is_char_boundary`: true at 0 and at `len`; inside the string,
true iff the byte is not a UTF-8 continuation byte (`b as i8 >= -0x40`). -/
def is_char_boundary (s : List Nat) (i : Nat) : Bool :=
  if i = 0 then true
  else
    match s.get? i with
    | some b => decide (b < 0x80 ∨ 0xC0 ≤ b)
    | none => decide (i = s.length)

/-- The byte sub-range `&s[a..b]` (total: out-of-range parts are dropped;
the source only slices at valid ranges). -/
def sliceB (s : List Nat) (a b : Nat) : List Nat :=
  (s.drop a).take (b - a)

/-- Rust's `str::get(a..b)`: `some` iff `a ≤ b ≤ len` and both ends are char
boundaries. -/
def strGet (s : List Nat) (a b : Nat) : Option (List Nat) :=
  if a ≤ b ∧ b ≤ s.length ∧ is_char_boundary s a ∧ is_char_boundary s b then
    some (sliceB s a b)
  else none

/-- The `get_aot` helper shared by all detectors:
`orig.get(c..c+1).unwrap_or("~")`.  A one-byte `&str` slice is returned as its
byte value; the tilde fallback is byte 126, exactly as in the source, where a
literal tilde and the fallback are indistinguishable. -/
def get_aot (s : List Nat) (c : Nat) : Nat :=
  if c + 1 ≤ s.length ∧ is_char_boundary s c ∧ is_char_boundary s (c + 1) then
    s.getD c 0
  else 126

/-- `let mut j = i; while !orig.is_char_boundary(j) { j += 1 }`.  For `j` at
most `len` this finds the first char boundary at or after `j` (position `len`
always is one); the fuel-exhaustion branch is unreachable there. -/
def nbAux (s : List Nat) : Nat → Nat → Nat
  | 0, j => j
  | fuel + 1, j => if is_char_boundary s j then j else nbAux s fuel (j + 1)

/-- First char boundary at or after `j` (for `j ≤ s.length`). -/
def nextBoundary (s : List Nat) (j : Nat) : Nat :=
  nbAux s (s.length + 1) j

/-! ## Whitespace detector (`detect/whitespace.rs`) -/

/-- One-byte ASCII whitespace accepted by `detect_whitespace`. -/
def isAsciiWs (c : Nat) : Prop :=
  c = 32 ∨ c = 10 ∨ c = 9 ∨ c = 13 ∨ c = 11 ∨ c = 12

instance (c : Nat) : Decidable (isAsciiWs c) := by
  unfold isAsciiWs; infer_instance

/-- The multi-byte Pattern_White_Space sequences accepted by
`detect_whitespace`: NEL, LRM, RLM, LS, PS. -/
def isWideWs (cs : List Nat) : Prop :=
  cs = [0xC2, 0x85] ∨ cs = [0xE2, 0x80, 0x8E] ∨ cs = [0xE2, 0x80, 0x8F] ∨
    cs = [0xE2, 0x80, 0xA8] ∨ cs = [0xE2, 0x80, 0xA9]

instance (cs : List Nat) : Decidable (isWideWs cs) := by
  unfold isWideWs; infer_instance

/-- The scan loop of `detect_whitespace`, returning the final `i`. -/
def wsLoop (orig : List Nat) : Nat → Nat → Nat
  | 0, i => i
  | fuel + 1, i =>
    if i < orig.length then
      let c := get_aot orig i
      if isAsciiWs c then wsLoop orig fuel (i + 1)
      else if c ≠ 126 then i
      else if i ≥ orig.length - 1 then i
      else
        let j := nextBoundary orig (i + 1)
        let cs := sliceB orig i j
        if cs = [126] then i
        else if isWideWs cs then wsLoop orig fuel j
        else i
    else i

/-- `detect_whitespace` from `detect/whitespace.rs`. -/
def detect_whitespace (orig : List Nat) (chr : Nat) : LexemeKind × Nat :=
  let len := orig.length
  if chr ≥ len ∨ ¬ is_char_boundary orig chr then UNDETECTED
  else
    let i := wsLoop orig (len + 1) chr
    if i = chr then UNDETECTED else (LexemeKind.WhitespaceTrimmable, i)

/-! ## Comment detector (`detect/comment.rs`) -/

/-- The scan loop of `detect_inline_comment`: from `i`, while `i < len - 1`,
return the position of a newline char, else the input length.  The
fuel-exhaustion branch mirrors the loop-exit return value `len`. -/
def inlineLoop (orig : List Nat) : Nat → Nat → Nat
  | 0, _ => orig.length
  | fuel + 1, i =>
    if i < orig.length - 1 then
      let j := nextBoundary orig (i + 1)
      if sliceB orig i j = [10] then i
      else inlineLoop orig fuel j
    else orig.length

/-- The scan loop of `detect_multiline_comment`, tracking the nesting depth.
The fuel-exhaustion branch mirrors the loop-exit return value `UNDETECTED`. -/
def mlLoop (orig : List Nat) : Nat → Nat → Nat → LexemeKind × Nat
  | 0, _, _ => UNDETECTED
  | fuel + 1, i, depth =>
    if i < orig.length then
      let j := nextBoundary orig (i + 1)
      let c0 := sliceB orig i j
      let c1 := get_aot orig j
      if c0 = [42] ∧ c1 = 47 then
        if depth = 0 then (LexemeKind.CommentMultiline, i + 2)
        else mlLoop orig fuel (j + 1) (depth - 1)
      else if c0 = [47] ∧ c1 = 42 then mlLoop orig fuel (j + 1) (depth + 1)
      else mlLoop orig fuel j depth
    else UNDETECTED

/-- `detect_comment` from `detect/comment.rs` (with `detect_inline_comment`
and `detect_multiline_comment` inlined at their call sites). -/
def detect_comment (orig : List Nat) (chr : Nat) : LexemeKind × Nat :=
  let len := orig.length
  if len < chr + 2 then UNDETECTED
  else if get_aot orig chr ≠ 47 then UNDETECTED
  else if get_aot orig (chr + 1) = 47 then
    (LexemeKind.CommentInline, inlineLoop orig (len + 1) (chr + 2))
  else if get_aot orig (chr + 1) = 42 then mlLoop orig (len + 1) (chr + 2) 0
  else UNDETECTED

/-! ## Character detector (`detect/character.rs`) -/

/-- ASCII hex digit, as tested through `char::is_ascii_hexdigit` on the
one-byte string returned by `get_aot` (the tilde fallback fails the test). -/
def isHexDigitB (c : Nat) : Prop :=
  (48 ≤ c ∧ c ≤ 57) ∨ (97 ≤ c ∧ c ≤ 102) ∨ (65 ≤ c ∧ c ≤ 70)

instance (c : Nat) : Decidable (isHexDigitB c) := by
  unfold isHexDigitB; infer_instance

/-- Value of an ASCII hex digit byte. -/
def hexDigitVal (c : Nat) : Nat :=
  if 48 ≤ c ∧ c ≤ 57 then c - 48
  else if 97 ≤ c ∧ c ≤ 102 then c - 87
  else if 65 ≤ c ∧ c ≤ 70 then c - 55
  else 0

/-- `u32::from_str_radix(codepoint, 16)` on a list of hex-digit bytes.
`from_str_radix` fails on the empty string, so the caller must treat an
empty digit list as the `Err` case. -/
def hexVal (cs : List Nat) : Nat :=
  cs.foldl (fun acc c => 16 * acc + hexDigitVal c) 0

/-- The `for i in 4..11` digit-collection loop of `detect_unicode_char`:
`none` when a non-hex-digit is hit or no closing curly bracket is found
within the window, otherwise the collected digits. -/
def ucLoop (orig : List Nat) (chr : Nat) : Nat → Nat → List Nat → Option (List Nat)
  | 0, _, _ => none
  | n + 1, i, acc =>
    let c := get_aot orig (chr + i)
    if c = 125 then some acc
    else if isHexDigitB c then ucLoop orig chr n (i + 1) (acc ++ [c])
    else none

/-- `detect_unicode_char` from `detect/character.rs`. -/
def detect_unicode_char (orig : List Nat) (chr : Nat) : LexemeKind × Nat :=
  let len := orig.length
  if len < chr + 7 ∨ get_aot orig (chr + 3) ≠ 123 then UNDETECTED
  else
    match ucLoop orig chr 7 4 [] with
    | none => UNDETECTED
    | some codepoint =>
      let l := codepoint.length + 5
      if get_aot orig (chr + l) ≠ 39 then UNDETECTED
      else if codepoint = [] then UNDETECTED
      else if hexVal codepoint > 0x10FFFF then UNDETECTED
      else (LexemeKind.CharacterUnicode, chr + l + 1)

/-- `detect_character` from `detect/character.rs`. -/
def detect_character (orig : List Nat) (chr : Nat) : LexemeKind × Nat :=
  let len := orig.length
  if len < chr + 3 then UNDETECTED
  else if get_aot orig chr ≠ 39 then UNDETECTED
  else
    let c1_end := nextBoundary orig (chr + 2)
    if len < c1_end + 1 then UNDETECTED
    else
      let c1 := sliceB orig (chr + 1) c1_end
      if c1 ≠ [92] then
        if c1 = [39] then UNDETECTED
        else if get_aot orig c1_end ≠ 39 then UNDETECTED
        else (LexemeKind.CharacterPlain, c1_end + 1)
      else
        let g := get_aot orig (chr + 2)
        if g = 110 ∨ g = 114 ∨ g = 116 ∨ g = 92 ∨ g = 48 ∨ g = 34 ∨ g = 39 then
          if len ≥ chr + 4 ∧ get_aot orig (chr + 3) = 39 then
            (LexemeKind.CharacterPlain, chr + 4)
          else UNDETECTED
        else if g = 120 then
          if len ≥ chr + 6 ∧ (48 ≤ get_aot orig (chr + 3) ∧ get_aot orig (chr + 3) ≤ 55) ∧
              isHexDigitB (get_aot orig (chr + 4)) ∧ get_aot orig (chr + 5) = 39 then
            (LexemeKind.CharacterHex, chr + 6)
          else UNDETECTED
        else if g = 117 then detect_unicode_char orig chr
        else UNDETECTED

/-! ## String detector (`detect/string.rs`) -/

/-- The scan loop of `detect_plain_string`.  The fuel-exhaustion branch
mirrors the loop-exit return value `UNDETECTED`. -/
def plainLoop (orig : List Nat) : Nat → Nat → LexemeKind × Nat
  | 0, _ => UNDETECTED
  | fuel + 1, i =>
    if i < orig.length then
      let j := nextBoundary orig (i + 1)
      let c := sliceB orig i j
      if c = [92] then
        if j = orig.length then UNDETECTED
        else plainLoop orig fuel (nextBoundary orig (j + 1))
      else if c = [34] then (LexemeKind.StringPlain, j)
      else plainLoop orig fuel j
    else UNDETECTED

/-- The scan loop of `detect_raw_string`, carrying the leading-hash tally and
the opening/closing double-quote flags.  The fuel-exhaustion branch mirrors
the code after the loop. -/
def rawLoop (orig : List Nat) :
    Nat → Nat → Nat → Bool → Bool → LexemeKind × Nat
  | 0, i, hashes, _, foundC =>
    if foundC ∧ hashes = 0 then (LexemeKind.StringRaw, i) else UNDETECTED
  | fuel + 1, i, hashes, foundO, foundC =>
    if i < orig.length then
      let j := nextBoundary orig (i + 1)
      let c := sliceB orig i j
      if ¬ foundO then
        if c = [34] then rawLoop orig fuel j hashes true foundC
        else if c = [35] then rawLoop orig fuel j (hashes + 1) foundO foundC
        else UNDETECTED
      else if foundC then
        if hashes = 0 then (LexemeKind.StringRaw, j)
        else if c = [35] then
          if hashes - 1 = 0 then (LexemeKind.StringRaw, j)
          else rawLoop orig fuel j (hashes - 1) foundO foundC
        else UNDETECTED
      else
        if c = [92] then
          if j = orig.length then UNDETECTED
          else rawLoop orig fuel (nextBoundary orig (j + 1)) hashes foundO foundC
        else if c = [34] then
          if hashes = 0 then (LexemeKind.StringRaw, j)
          else rawLoop orig fuel j hashes foundO true
        else rawLoop orig fuel j hashes foundO foundC
    else if foundC ∧ hashes = 0 then (LexemeKind.StringRaw, i) else UNDETECTED

/-- `detect_string` from `detect/string.rs` (sub-functions inlined at their
dispatch sites). -/
def detect_string (orig : List Nat) (chr : Nat) : LexemeKind × Nat :=
  let len := orig.length
  if len < chr + 1 then UNDETECTED
  else if get_aot orig chr = 34 then plainLoop orig (len + 1) (chr + 1)
  else if get_aot orig chr = 114 then
    if len < chr + 3 then UNDETECTED
    else rawLoop orig (len + 1) (chr + 1) 0 false false
  else UNDETECTED

/-! ## Identifier detector (`detect/identifier.rs`) -/

/-- ASCII-alphabetic test on a `get_aot` byte.  `char::is_alphabetic` is
Unicode-aware, but a one-byte slice of a `&str` is always ASCII, so this is
what every reachable call evaluates. -/
def isAlphaB (c : Nat) : Prop :=
  (65 ≤ c ∧ c ≤ 90) ∨ (97 ≤ c ∧ c ≤ 122)

instance (c : Nat) : Decidable (isAlphaB c) := by
  unfold isAlphaB; infer_instance

/-- ASCII-alphanumeric test on a `get_aot` byte (see `isAlphaB`). -/
def isAlnumB (c : Nat) : Prop :=
  isAlphaB c ∨ (48 ≤ c ∧ c ≤ 57)

instance (c : Nat) : Decidable (isAlnumB c) := by
  unfold isAlnumB; infer_instance

/-- The `KEYWORDS` table:  52 reserved words. -/
def KEYWORDS : List (List Nat) :=
  ["abstract", "as", "async", "await", "become", "box", "break", "const",
   "continue", "crate", "do", "dyn", "else", "enum", "extern", "false",
   "final", "fn", "for", "if", "impl", "in", "let", "loop", "macro",
   "match", "mod", "move", "mut", "override", "priv", "pub", "ref",
   "return", "Self", "self", "static", "struct", "super", "trait", "true",
   "try", "type", "typeof", "union", "unsafe", "unsized", "use", "virtual",
   "where", "while", "yield"].map strBytes

/-- The `PRIMATIVE_TYPES` table: 18 entries (`str` appears twice). -/
def PRIMATIVE_TYPES : List (List Nat) :=
  ["bool", "char", "f32", "f64", "i128", "i16", "i32", "i64", "i8",
   "isize", "str", "str", "u128", "u16", "u32", "u64", "u8",
   "usize"].map strBytes

/-- `categorize_identifier` from `detect/identifier.rs`. -/
def categorize_identifier (s : List Nat) : LexemeKind :=
  if s ∈ KEYWORDS then LexemeKind.IdentifierKeyword
  else if s ∈ PRIMATIVE_TYPES then LexemeKind.IdentifierStdType
  else LexemeKind.IdentifierFreeword

/-- The `for i in chr+2..len` scan loop of `detect_identifier`; `chr` is the
candidate's start.  The fuel-exhaustion branch mirrors the code after the
loop. -/
def idLoop (orig : List Nat) (chr : Nat) : Nat → Nat → LexemeKind × Nat
  | 0, _ => (categorize_identifier (sliceB orig chr orig.length), orig.length)
  | fuel + 1, i =>
    if i < orig.length then
      let c := get_aot orig i
      if c ≠ 95 ∧ ¬ isAlnumB c then (categorize_identifier (sliceB orig chr i), i)
      else idLoop orig chr fuel (i + 1)
    else (categorize_identifier (sliceB orig chr orig.length), orig.length)

/-- `detect_identifier` from `detect/identifier.rs`. -/
def detect_identifier (orig : List Nat) (chr : Nat) : LexemeKind × Nat :=
  let len := orig.length
  if chr ≥ len then UNDETECTED
  else
    let c0 := get_aot orig chr
    let c0_u := c0 = 95
    if ¬ c0_u ∧ ¬ isAlphaB c0 then UNDETECTED
    else if len = chr + 1 then
      if c0_u then UNDETECTED else (LexemeKind.IdentifierFreeword, len)
    else
      let c1 := get_aot orig (chr + 1)
      if c1 ≠ 95 ∧ ¬ isAlnumB c1 then
        if c0_u then UNDETECTED else (LexemeKind.IdentifierFreeword, chr + 1)
      else idLoop orig chr (len + 1) (chr + 2)

/-! ## Number detector (`detect/number.rs`) -/

/-- The scan loop of `detect_number_binary`.  The fuel-exhaustion branch
mirrors the code after the loop. -/
def binLoop (orig : List Nat) : Nat → Nat → Bool → LexemeKind × Nat
  | 0, _, hasDigit =>
    if hasDigit then (LexemeKind.NumberBinary, orig.length) else UNDETECTED
  | fuel + 1, i, hasDigit =>
    if i < orig.length then
      let c := get_aot orig i
      if c = 95 then binLoop orig fuel (i + 1) hasDigit
      else if c = 48 ∨ c = 49 then binLoop orig fuel (i + 1) true
      else if (48 ≤ c ∧ c ≤ 57) ∨ c = 46 then UNDETECTED
      else if hasDigit then (LexemeKind.NumberBinary, i) else UNDETECTED
    else if hasDigit then (LexemeKind.NumberBinary, orig.length) else UNDETECTED

/-- The scan loop of `detect_number_hex`. -/
def hexLoop (orig : List Nat) : Nat → Nat → Bool → LexemeKind × Nat
  | 0, _, hasDigit =>
    if hasDigit then (LexemeKind.NumberHex, orig.length) else UNDETECTED
  | fuel + 1, i, hasDigit =>
    if i < orig.length then
      let c := get_aot orig i
      if c = 95 then hexLoop orig fuel (i + 1) hasDigit
      else if isHexDigitB c then hexLoop orig fuel (i + 1) true
      else if c = 46 then UNDETECTED
      else if hasDigit then (LexemeKind.NumberHex, i) else UNDETECTED
    else if hasDigit then (LexemeKind.NumberHex, orig.length) else UNDETECTED

/-- The scan loop of `detect_number_octal`. -/
def octLoop (orig : List Nat) : Nat → Nat → Bool → LexemeKind × Nat
  | 0, _, hasDigit =>
    if hasDigit then (LexemeKind.NumberOctal, orig.length) else UNDETECTED
  | fuel + 1, i, hasDigit =>
    if i < orig.length then
      let c := get_aot orig i
      if c = 95 then octLoop orig fuel (i + 1) hasDigit
      else if 48 ≤ c ∧ c ≤ 55 then octLoop orig fuel (i + 1) true
      else if c = 46 then UNDETECTED
      else if hasDigit then (LexemeKind.NumberOctal, i) else UNDETECTED
    else if hasDigit then (LexemeKind.NumberOctal, orig.length) else UNDETECTED

/-- The scan loop of `detect_number_decimal`, carrying `has_dot`, `has_e`,
`pos_dot`, `pos_e`, `pos_eu` and `pos_s`.  The fuel-exhaustion branch mirrors
the code after the loop. -/
def decLoop (orig : List Nat) :
    Nat → Nat → Bool → Bool → Nat → Nat → Nat → Nat → LexemeKind × Nat
  | 0, _, _, _, _, pe, peu, ps =>
    if orig.length = pe ∨ orig.length = ps ∨ orig.length = peu then UNDETECTED
    else (LexemeKind.NumberDecimal, orig.length)
  | fuel + 1, i, hasDot, hasE, pd, pe, peu, ps =>
    if i < orig.length then
      let c := get_aot orig i
      if c = 95 then
        if hasDot ∧ pd = i then UNDETECTED
        else if hasE ∧ pe = i then decLoop orig fuel (i + 1) hasDot hasE pd pe (i + 1) ps
        else decLoop orig fuel (i + 1) hasDot hasE pd pe peu ps
      else if hasE ∧ pe = i ∧ (c = 43 ∨ c = 45) then
        decLoop orig fuel (i + 1) hasDot hasE pd pe peu (i + 1)
      else if ¬ hasDot ∧ c = 46 then
        if hasE then UNDETECTED
        else decLoop orig fuel (i + 1) true hasE (i + 1) pe peu ps
      else if ¬ hasE ∧ (c = 101 ∨ c = 69) then
        decLoop orig fuel (i + 1) hasDot true pd (i + 1) peu ps
      else if c < 48 ∨ c > 57 then
        if i = pe ∨ i = ps ∨ i = peu then UNDETECTED
        else (LexemeKind.NumberDecimal, i)
      else decLoop orig fuel (i + 1) hasDot hasE pd pe peu ps
    else
      if orig.length = pe ∨ orig.length = ps ∨ orig.length = peu then UNDETECTED
      else (LexemeKind.NumberDecimal, orig.length)

/-- `detect_number` from `detect/number.rs` (sub-detectors inlined at their
dispatch sites). -/
def detect_number (orig : List Nat) (chr : Nat) : LexemeKind × Nat :=
  let len := orig.length
  if chr ≥ len then UNDETECTED
  else
    let c := get_aot orig chr
    if c < 48 ∨ c > 57 then UNDETECTED
    else if len = chr + 1 then (LexemeKind.NumberDecimal, len)
    else if c ≠ 48 then decLoop orig (len + 1) (chr + 1) false false 0 0 0 0
    else
      let c1 := get_aot orig (chr + 1)
      if c1 = 98 then binLoop orig (len + 1) (chr + 2) false
      else if c1 = 120 then hexLoop orig (len + 1) (chr + 2) false
      else if c1 = 111 then octLoop orig (len + 1) (chr + 2) false
      else decLoop orig (len + 1) (chr + 1) false false 0 0 0 0

/-! ## Punctuation detector (`detect/punctuation.rs`) -/

/-- The `PUNCTUATION_1` table: 28 single-character punctuation marks. -/
def PUNCTUATION_1 : List (List Nat) :=
  ["'", "_", "-", ",", ";", ":", "!", "?", ".", "(", ")", "[", "]",
   "\x7b", "\x7d", "@", "*", "/", "&", "#", "%", "^", "+", "<", "=",
   ">", "|", "$"].map strBytes

/-- The `PUNCTUATION_2` table: 20 two-character combinations. -/
def PUNCTUATION_2 : List (List Nat) :=
  ["-=", "->", "::", "!=", "..", "*=", "/=", "&&", "&=", "%=", "^=",
   "+=", "<<", "<=", "==", "=>", ">=", ">>", "|=", "||"].map strBytes

/-- The `PUNCTUATION_3` table: 4 three-character combinations. -/
def PUNCTUATION_3 : List (List Nat) :=
  ["...", "..=", "<<=", ">>="].map strBytes

/-- `detect_punctuation` from `detect/punctuation.rs`.  The `c0`, `c1`, `c2`
slices are `orig.get(chr..chr+k).unwrap_or("~")`. -/
def detect_punctuation (orig : List Nat) (chr : Nat) : LexemeKind × Nat :=
  let len := orig.length
  if chr ≥ len then UNDETECTED
  else
    let c0 := (strGet orig chr (chr + 1)).getD [126]
    if c0 ∉ PUNCTUATION_1 then UNDETECTED
    else if len = chr + 1 then (LexemeKind.Punctuation, len)
    else
      let c1 := (strGet orig chr (chr + 2)).getD [126]
      if c1 ∉ PUNCTUATION_2 then (LexemeKind.Punctuation, chr + 1)
      else if len = chr + 2 then (LexemeKind.Punctuation, len)
      else
        let c2 := (strGet orig chr (chr + 3)).getD [126]
        if c2 ∉ PUNCTUATION_3 then (LexemeKind.Punctuation, chr + 2)
        else (LexemeKind.Punctuation, chr + 3)

/-! ## Orchestrator (`lexemize.rs`) -/

/-- The `DETECTORS` array, in its fixed priority order: `detect_string` must
precede `detect_identifier` because a raw string starts with `r`. -/
def DETECTORS : List (List Nat → Nat → LexemeKind × Nat) :=
  [detect_character, detect_comment, detect_string, detect_identifier,
   detect_number, detect_punctuation, detect_whitespace]

/-- The inner `for detector in DETECTORS.iter()` scan: the first detector
returning a kind other than `Undetected` wins; otherwise `UNDETECTED`. -/
def firstDetect : List (List Nat → Nat → LexemeKind × Nat) → List Nat → Nat →
    LexemeKind × Nat
  | [], _, _ => UNDETECTED
  | d :: ds, orig, chr =>
    let r := d orig chr
    if r.1 = LexemeKind.Undetected then firstDetect ds orig chr else r

/-- The snippet of the end-of-input sentinel lexeme. -/
def eoiBytes : List Nat := strBytes "<EOI>"

/-- The trailing code of `lexemize` after its scan loop: flush a pending
`Unidentifiable` run, then append the sentinel lexeme. -/
def lexFinish (orig : List Nat) (chr unident : Nat) : List Lexeme :=
  (if unident ≠ chr then
    [⟨LexemeKind.Unidentifiable, unident, sliceB orig unident chr⟩]
   else []) ++ [⟨LexemeKind.WhitespaceTrimmable, chr, eoiBytes⟩]

/-- The `'outer: while chr < len` scan loop of `lexemize`, with the pending
unidentified-run start `unident`.  The fuel-exhaustion branch mirrors the
code after the loop; `lexemize` passes enough fuel for it to be
unreachable. -/
def lexLoop (orig : List Nat) : Nat → Nat → Nat → List Lexeme
  | 0, chr, unident => lexFinish orig chr unident
  | fuel + 1, chr, unident =>
    if chr < orig.length then
      if is_char_boundary orig chr then
        let r := firstDetect DETECTORS orig chr
        if r.1 ≠ LexemeKind.Undetected then
          (if unident ≠ chr then
            [⟨LexemeKind.Unidentifiable, unident, sliceB orig unident chr⟩]
           else []) ++
          ⟨r.1, chr, sliceB orig chr r.2⟩ :: lexLoop orig fuel r.2 r.2
        else lexLoop orig fuel (chr + 1) unident
      else lexLoop orig fuel (chr + 1) unident
    else lexFinish orig chr unident

/-- `struct LexemizeResult` from `lexemize.rs`. -/
structure LexemizeResult where
  lexemes : List Lexeme
  deriving DecidableEq, Repr

/-- `lexemize` from `lexemize.rs`. -/
def lexemize (orig : List Nat) : LexemizeResult :=
  ⟨lexLoop orig (orig.length + 1) 0 0⟩

/-! ## Basic facts about the byte primitives -/

theorem is_char_boundary_length (s : List Nat) :
    is_char_boundary s s.length = true := by
  unfold is_char_boundary
  rcases Nat.eq_zero_or_pos s.length with h | h
  · simp [h]
  · have : s.get? s.length = none := by
      simp [List.get?_eq_none]
    simp [this, Nat.pos_iff_ne_zero.mp h]

theorem is_char_boundary_of_gt (s : List Nat) (i : Nat) (h : s.length < i) :
    is_char_boundary s i = false := by
  unfold is_char_boundary
  have h0 : i ≠ 0 := by omega
  have hn : s.get? i = none := by
    simp only [List.get?_eq_none]; omega
  rw [if_neg h0, hn]
  simp only [decide_eq_false_iff_not]
  omega

theorem get_aot_spec (s : List Nat) (c : Nat) (h : get_aot s c ≠ 126) :
    c + 1 ≤ s.length ∧ is_char_boundary s c = true ∧
      is_char_boundary s (c + 1) = true ∧ s.get? c = some (get_aot s c) := by
  unfold get_aot at *
  split at h
  · rename_i hc
    refine ⟨hc.1, hc.2.1, hc.2.2, ?_⟩
    have hlt : c < s.length := by omega
    simp [List.getD, List.get?_eq_getElem?, List.getElem?_eq_getElem hlt, hc]
  · simp at h

theorem sliceB_length (s : List Nat) (a b : Nat) :
    (sliceB s a b).length = min (b - a) (s.length - a) := by
  simp [sliceB]

theorem sliceB_append (s : List Nat) (a b c : Nat) (hab : a ≤ b) (hbc : b ≤ c) :
    sliceB s a b ++ sliceB s b c = sliceB s a c := by
  unfold sliceB
  have hd : s.drop b = (s.drop a).drop (b - a) := by
    rw [List.drop_drop]; congr 1; omega
  rw [hd, ← List.take_add]
  congr 1; omega

theorem sliceB_full (s : List Nat) : sliceB s 0 s.length = s := by
  simp [sliceB]

theorem sliceB_head (s : List Nat) (i j b : Nat) (h : sliceB s i j = [b]) :
    s.get? i = some b := by
  unfold sliceB at h
  have h0 : (s.drop i).head? = some b := by
    rcases hd : s.drop i with _ | ⟨x, xs⟩
    · rw [hd] at h; simp at h
    · rcases k : j - i with _ | n
      · rw [k] at h; simp at h
      · rw [hd, k] at h
        simp only [List.take_succ_cons, List.cons.injEq] at h
        simp [h.1]
  have h2 := List.getElem?_drop s i 0
  rw [Nat.add_zero] at h2
  rw [List.get?_eq_getElem?, ← h2, ← List.head?_eq_getElem?]
  exact h0

theorem nbAux_spec (s : List Nat) : ∀ fuel j, j ≤ s.length → s.length - j < fuel →
    j ≤ nbAux s fuel j ∧ nbAux s fuel j ≤ s.length ∧
      is_char_boundary s (nbAux s fuel j) = true ∧
      ∀ m, j ≤ m → m < nbAux s fuel j → is_char_boundary s m = false := by
  intro fuel
  induction fuel with
  | zero => intro j hj hf; omega
  | succ fuel ih =>
    intro j hj hf
    rw [nbAux]
    by_cases hb : is_char_boundary s j
    · rw [if_pos hb]
      exact ⟨Nat.le_refl j, hj, hb, fun m h1 h2 => absurd h2 (by omega)⟩
    · rw [if_neg hb]
      have hjlen : j ≠ s.length := by
        intro he; rw [he] at hb; exact hb (is_char_boundary_length s)
      have h1 : j + 1 ≤ s.length := by omega
      have h2 : s.length - (j + 1) < fuel := by omega
      obtain ⟨a, b, c, d⟩ := ih (j + 1) h1 h2
      refine ⟨by omega, b, c, fun m hm1 hm2 => ?_⟩
      rcases Nat.eq_or_lt_of_le hm1 with he | hlt
      · rw [← he]; exact Bool.eq_false_iff.mpr hb
      · exact d m hlt hm2

theorem nextBoundary_spec (s : List Nat) (j : Nat) (hj : j ≤ s.length) :
    j ≤ nextBoundary s j ∧ nextBoundary s j ≤ s.length ∧
      is_char_boundary s (nextBoundary s j) = true ∧
      ∀ m, j ≤ m → m < nextBoundary s j → is_char_boundary s m = false :=
  nbAux_spec s (s.length + 1) j hj (by omega)

/-- A slice from `i` to the next char boundary after `i` is a single byte only
when that boundary is at `i + 1`. -/
theorem nb_slice_singleton (s : List Nat) (i b : Nat) (hi : i < s.length)
    (h : sliceB s i (nextBoundary s (i + 1)) = [b]) :
    nextBoundary s (i + 1) = i + 1 := by
  obtain ⟨h1, h2, _, _⟩ := nextBoundary_spec s (i + 1) (by omega)
  have hlen := sliceB_length s i (nextBoundary s (i + 1))
  rw [h] at hlen
  simp at hlen
  omega

/-! ## Progress and kind facts for each detector

Each detector either fails with `UNDETECTED` or returns an end offset that
is strictly beyond the offset it was called at and at most the input length;
and its success kinds are exactly the ones of its family. -/

theorem wsLoop_bounds (orig : List Nat) : ∀ fuel i, i ≤ orig.length →
    i ≤ wsLoop orig fuel i ∧ wsLoop orig fuel i ≤ orig.length := by
  intro fuel
  induction fuel with
  | zero => intro i hi; rw [wsLoop]; exact ⟨Nat.le_refl i, hi⟩
  | succ fuel ih =>
    intro i hi
    rw [wsLoop]
    simp only
    by_cases h1 : i < orig.length
    · rw [if_pos h1]
      by_cases h2 : isAsciiWs (get_aot orig i)
      · rw [if_pos h2]
        have h3 := ih (i + 1) (by omega)
        exact ⟨by omega, h3.2⟩
      · rw [if_neg h2]
        by_cases h3 : get_aot orig i ≠ 126
        · rw [if_pos h3]; exact ⟨Nat.le_refl i, hi⟩
        · rw [if_neg h3]
          by_cases h4 : i ≥ orig.length - 1
          · rw [if_pos h4]; exact ⟨Nat.le_refl i, hi⟩
          · rw [if_neg h4]
            by_cases h5 : sliceB orig i (nextBoundary orig (i + 1)) = [126]
            · rw [if_pos h5]; exact ⟨Nat.le_refl i, hi⟩
            · rw [if_neg h5]
              obtain ⟨n1, n2, _, _⟩ := nextBoundary_spec orig (i + 1) (by omega)
              by_cases h6 : isWideWs (sliceB orig i (nextBoundary orig (i + 1)))
              · rw [if_pos h6]
                have h7 := ih (nextBoundary orig (i + 1)) n2
                exact ⟨by omega, h7.2⟩
              · rw [if_neg h6]; exact ⟨Nat.le_refl i, hi⟩
    · rw [if_neg h1]; exact ⟨Nat.le_refl i, hi⟩

theorem detect_whitespace_progress (orig : List Nat) (chr : Nat)
    (h : (detect_whitespace orig chr).1 ≠ LexemeKind.Undetected) :
    chr < (detect_whitespace orig chr).2 ∧
      (detect_whitespace orig chr).2 ≤ orig.length := by
  unfold detect_whitespace at *
  simp only at *
  by_cases hc : chr ≥ orig.length ∨ ¬ is_char_boundary orig chr = true
  · rw [if_pos hc] at h; exact absurd rfl h
  · rw [if_neg hc] at h ⊢
    have hchr : chr ≤ orig.length := by
      have := (not_or.mp hc).1
      omega
    have hb := wsLoop_bounds orig (orig.length + 1) chr hchr
    by_cases hne : wsLoop orig (orig.length + 1) chr = chr
    · rw [if_pos hne] at h; exact absurd rfl h
    · rw [if_neg hne] at h ⊢
      exact ⟨by omega, hb.2⟩

theorem detect_whitespace_kinds (orig : List Nat) (chr : Nat) :
    (detect_whitespace orig chr).1 = LexemeKind.Undetected ∨
      (detect_whitespace orig chr).1 = LexemeKind.WhitespaceTrimmable := by
  unfold detect_whitespace
  simp only
  split
  · left; rfl
  · split
    · left; rfl
    · right; rfl

theorem inlineLoop_cases (orig : List Nat) : ∀ fuel i,
    inlineLoop orig fuel i = orig.length ∨
      (i ≤ inlineLoop orig fuel i ∧ inlineLoop orig fuel i < orig.length) := by
  intro fuel
  induction fuel with
  | zero => intro i; left; rw [inlineLoop]
  | succ fuel ih =>
    intro i
    rw [inlineLoop]
    simp only
    by_cases h1 : i < orig.length - 1
    · rw [if_pos h1]
      by_cases h2 : sliceB orig i (nextBoundary orig (i + 1)) = [10]
      · rw [if_pos h2]; right; exact ⟨Nat.le_refl i, by omega⟩
      · rw [if_neg h2]
        obtain ⟨n1, _, _, _⟩ := nextBoundary_spec orig (i + 1) (by omega)
        rcases ih (nextBoundary orig (i + 1)) with h | h
        · left; exact h
        · right; exact ⟨by omega, h.2⟩
    · rw [if_neg h1]; left; rfl

theorem mlLoop_cases (orig : List Nat) : ∀ fuel i depth k n,
    mlLoop orig fuel i depth = (k, n) →
    (k, n) = UNDETECTED ∨
      (k = LexemeKind.CommentMultiline ∧ i < n ∧ n ≤ orig.length) := by
  intro fuel
  induction fuel with
  | zero => intro i depth k n h; left; rw [mlLoop] at h; exact h.symm
  | succ fuel ih =>
    intro i depth k n h
    rw [mlLoop] at h
    simp only at h
    by_cases h1 : i < orig.length
    · rw [if_pos h1] at h
      obtain ⟨n1, n2, _, _⟩ := nextBoundary_spec orig (i + 1) (by omega)
      by_cases h2 : sliceB orig i (nextBoundary orig (i + 1)) = [42] ∧
          get_aot orig (nextBoundary orig (i + 1)) = 47
      · rw [if_pos h2] at h
        by_cases h3 : depth = 0
        · rw [if_pos h3] at h
          right
          have hj : nextBoundary orig (i + 1) = i + 1 :=
            nb_slice_singleton orig i 42 h1 h2.1
          have h47 : get_aot orig (i + 1) ≠ 126 := by
            rw [← hj, h2.2]; omega
          have := get_aot_spec orig (i + 1) h47
          cases h
          exact ⟨rfl, by omega, by omega⟩
        · rw [if_neg h3] at h
          rcases ih _ _ _ _ h with hu | hs
          · left; exact hu
          · right; exact ⟨hs.1, by omega, hs.2.2⟩
      · rw [if_neg h2] at h
        by_cases h4 : sliceB orig i (nextBoundary orig (i + 1)) = [47] ∧
            get_aot orig (nextBoundary orig (i + 1)) = 42
        · rw [if_pos h4] at h
          rcases ih _ _ _ _ h with hu | hs
          · left; exact hu
          · right; exact ⟨hs.1, by omega, hs.2.2⟩
        · rw [if_neg h4] at h
          rcases ih _ _ _ _ h with hu | hs
          · left; exact hu
          · right; exact ⟨hs.1, by omega, hs.2.2⟩
    · rw [if_neg h1] at h; left; exact h.symm

theorem detect_comment_cases (orig : List Nat) (chr : Nat) (k : LexemeKind)
    (n : Nat) (h : detect_comment orig chr = (k, n)) :
    (k, n) = UNDETECTED ∨
      ((k = LexemeKind.CommentInline ∨ k = LexemeKind.CommentMultiline) ∧
        chr < n ∧ n ≤ orig.length) := by
  unfold detect_comment at h
  simp only at h
  by_cases h1 : orig.length < chr + 2
  · rw [if_pos h1] at h; left; exact h.symm
  · rw [if_neg h1] at h
    by_cases h2 : get_aot orig chr ≠ 47
    · rw [if_pos h2] at h; left; exact h.symm
    · rw [if_neg h2] at h
      by_cases h3 : get_aot orig (chr + 1) = 47
      · rw [if_pos h3] at h
        cases h
        right
        refine ⟨Or.inl rfl, ?_, ?_⟩
        · rcases inlineLoop_cases orig (orig.length + 1) (chr + 2) with h4 | h4
          · omega
          · omega
        · rcases inlineLoop_cases orig (orig.length + 1) (chr + 2) with h4 | h4
          · omega
          · omega
      · rw [if_neg h3] at h
        by_cases h5 : get_aot orig (chr + 1) = 42
        · rw [if_pos h5] at h
          rcases mlLoop_cases orig _ _ _ _ _ h with hu | hs
          · left; exact hu
          · right; exact ⟨Or.inr hs.1, by omega, hs.2.2⟩
        · rw [if_neg h5] at h; left; exact h.symm

theorem detect_unicode_char_cases (orig : List Nat) (chr : Nat)
    (k : LexemeKind) (n : Nat) (h : detect_unicode_char orig chr = (k, n)) :
    (k, n) = UNDETECTED ∨
      (k = LexemeKind.CharacterUnicode ∧ chr < n ∧ n ≤ orig.length) := by
  unfold detect_unicode_char at h
  simp only at h
  by_cases h1 : orig.length < chr + 7 ∨ get_aot orig (chr + 3) ≠ 123
  · rw [if_pos h1] at h; left; exact h.symm
  · rw [if_neg h1] at h
    rcases hm : ucLoop orig chr 7 4 [] with _ | cp
    · rw [hm] at h; left; exact h.symm
    · rw [hm] at h
      dsimp only at h
      by_cases h2 : get_aot orig (chr + (cp.length + 5)) ≠ 39
      · rw [if_pos h2] at h; left; exact h.symm
      · rw [if_neg h2] at h
        by_cases h2e : cp = []
        · rw [if_pos h2e] at h; left; exact h.symm
        · rw [if_neg h2e] at h
          by_cases h3 : hexVal cp > 0x10FFFF
          · rw [if_pos h3] at h; left; exact h.symm
          · rw [if_neg h3] at h
            cases h
            right
            have h39 : get_aot orig (chr + (cp.length + 5)) ≠ 126 := by
              intro he; rw [he] at h2; omega
            have := (get_aot_spec orig _ h39).1
            exact ⟨rfl, by omega, by omega⟩

theorem detect_character_cases (orig : List Nat) (chr : Nat) (k : LexemeKind)
    (n : Nat) (h : detect_character orig chr = (k, n)) :
    (k, n) = UNDETECTED ∨
      ((k = LexemeKind.CharacterPlain ∨ k = LexemeKind.CharacterHex ∨
        k = LexemeKind.CharacterUnicode) ∧ chr < n ∧ n ≤ orig.length) := by
  unfold detect_character at h
  simp only at h
  by_cases h1 : orig.length < chr + 3
  · rw [if_pos h1] at h; left; exact h.symm
  · rw [if_neg h1] at h
    by_cases h2 : get_aot orig chr ≠ 39
    · rw [if_pos h2] at h; left; exact h.symm
    · rw [if_neg h2] at h
      obtain ⟨b1, b2, _, _⟩ := nextBoundary_spec orig (chr + 2) (by omega)
      by_cases h3 : orig.length < nextBoundary orig (chr + 2) + 1
      · rw [if_pos h3] at h; left; exact h.symm
      · rw [if_neg h3] at h
        by_cases h4 : sliceB orig (chr + 1) (nextBoundary orig (chr + 2)) ≠ [92]
        · rw [if_pos h4] at h
          by_cases h5 : sliceB orig (chr + 1) (nextBoundary orig (chr + 2)) = [39]
          · rw [if_pos h5] at h; left; exact h.symm
          · rw [if_neg h5] at h
            by_cases h6 : get_aot orig (nextBoundary orig (chr + 2)) ≠ 39
            · rw [if_pos h6] at h; left; exact h.symm
            · rw [if_neg h6] at h
              cases h
              right
              exact ⟨Or.inl rfl, by omega, by omega⟩
        · rw [if_neg h4] at h
          by_cases h7 : get_aot orig (chr + 2) = 110 ∨ get_aot orig (chr + 2) = 114 ∨
              get_aot orig (chr + 2) = 116 ∨ get_aot orig (chr + 2) = 92 ∨
              get_aot orig (chr + 2) = 48 ∨ get_aot orig (chr + 2) = 34 ∨
              get_aot orig (chr + 2) = 39
          · rw [if_pos h7] at h
            by_cases h8 : orig.length ≥ chr + 4 ∧ get_aot orig (chr + 3) = 39
            · rw [if_pos h8] at h
              cases h
              right
              exact ⟨Or.inl rfl, by omega, by omega⟩
            · rw [if_neg h8] at h; left; exact h.symm
          · rw [if_neg h7] at h
            by_cases h9 : get_aot orig (chr + 2) = 120
            · rw [if_pos h9] at h
              by_cases h10 : orig.length ≥ chr + 6 ∧
                  (48 ≤ get_aot orig (chr + 3) ∧ get_aot orig (chr + 3) ≤ 55) ∧
                  isHexDigitB (get_aot orig (chr + 4)) ∧ get_aot orig (chr + 5) = 39
              · rw [if_pos h10] at h
                cases h
                right
                exact ⟨Or.inr (Or.inl rfl), by omega, by omega⟩
              · rw [if_neg h10] at h; left; exact h.symm
            · rw [if_neg h9] at h
              by_cases h11 : get_aot orig (chr + 2) = 117
              · rw [if_pos h11] at h
                rcases detect_unicode_char_cases orig chr k n h with hu | hs
                · left; exact hu
                · right; exact ⟨Or.inr (Or.inr hs.1), hs.2⟩
              · rw [if_neg h11] at h; left; exact h.symm

theorem plainLoop_cases (orig : List Nat) : ∀ fuel i k n,
    plainLoop orig fuel i = (k, n) →
    (k, n) = UNDETECTED ∨
      (k = LexemeKind.StringPlain ∧ i < n ∧ n ≤ orig.length) := by
  intro fuel
  induction fuel with
  | zero => intro i k n h; left; rw [plainLoop] at h; exact h.symm
  | succ fuel ih =>
    intro i k n h
    rw [plainLoop] at h
    simp only at h
    by_cases h1 : i < orig.length
    · rw [if_pos h1] at h
      obtain ⟨n1, n2, _, _⟩ := nextBoundary_spec orig (i + 1) (by omega)
      by_cases h2 : sliceB orig i (nextBoundary orig (i + 1)) = [92]
      · rw [if_pos h2] at h
        by_cases h3 : nextBoundary orig (i + 1) = orig.length
        · rw [if_pos h3] at h; left; exact h.symm
        · rw [if_neg h3] at h
          obtain ⟨m1, _, _, _⟩ :=
            nextBoundary_spec orig (nextBoundary orig (i + 1) + 1) (by omega)
          rcases ih _ _ _ h with hu | hs
          · left; exact hu
          · right; exact ⟨hs.1, by omega, hs.2.2⟩
      · rw [if_neg h2] at h
        by_cases h4 : sliceB orig i (nextBoundary orig (i + 1)) = [34]
        · rw [if_pos h4] at h
          cases h
          right
          exact ⟨rfl, by omega, by omega⟩
        · rw [if_neg h4] at h
          rcases ih _ _ _ h with hu | hs
          · left; exact hu
          · right; exact ⟨hs.1, by omega, hs.2.2⟩
    · rw [if_neg h1] at h; left; exact h.symm

theorem rawLoop_cases (orig : List Nat) : ∀ fuel i hashes fO fC k n,
    i ≤ orig.length → rawLoop orig fuel i hashes fO fC = (k, n) →
    (k, n) = UNDETECTED ∨
      (k = LexemeKind.StringRaw ∧ i ≤ n ∧ n ≤ orig.length) := by
  intro fuel
  induction fuel with
  | zero =>
    intro i hashes fO fC k n hi h
    rw [rawLoop] at h
    by_cases h0 : fC = true ∧ hashes = 0
    · rw [if_pos h0] at h; cases h; right; exact ⟨rfl, Nat.le_refl i, hi⟩
    · rw [if_neg h0] at h; left; exact h.symm
  | succ fuel ih =>
    intro i hashes fO fC k n hi h
    rw [rawLoop] at h
    simp only at h
    by_cases h1 : i < orig.length
    · rw [if_pos h1] at h
      obtain ⟨n1, n2, _, _⟩ := nextBoundary_spec orig (i + 1) (by omega)
      by_cases h2 : ¬ fO = true
      · rw [if_pos h2] at h
        by_cases h3 : sliceB orig i (nextBoundary orig (i + 1)) = [34]
        · rw [if_pos h3] at h
          rcases ih _ _ _ _ _ _ n2 h with hu | hs
          · left; exact hu
          · right; exact ⟨hs.1, by omega, hs.2.2⟩
        · rw [if_neg h3] at h
          by_cases h4 : sliceB orig i (nextBoundary orig (i + 1)) = [35]
          · rw [if_pos h4] at h
            rcases ih _ _ _ _ _ _ n2 h with hu | hs
            · left; exact hu
            · right; exact ⟨hs.1, by omega, hs.2.2⟩
          · rw [if_neg h4] at h; left; exact h.symm
      · rw [if_neg h2] at h
        by_cases h5 : fC = true
        · rw [if_pos h5] at h
          by_cases h6 : hashes = 0
          · rw [if_pos h6] at h; cases h; right; exact ⟨rfl, by omega, n2⟩
          · rw [if_neg h6] at h
            by_cases h7 : sliceB orig i (nextBoundary orig (i + 1)) = [35]
            · rw [if_pos h7] at h
              by_cases h8 : hashes - 1 = 0
              · rw [if_pos h8] at h; cases h; right; exact ⟨rfl, by omega, n2⟩
              · rw [if_neg h8] at h
                rcases ih _ _ _ _ _ _ n2 h with hu | hs
                · left; exact hu
                · right; exact ⟨hs.1, by omega, hs.2.2⟩
            · rw [if_neg h7] at h; left; exact h.symm
        · rw [if_neg h5] at h
          by_cases h9 : sliceB orig i (nextBoundary orig (i + 1)) = [92]
          · rw [if_pos h9] at h
            by_cases h10 : nextBoundary orig (i + 1) = orig.length
            · rw [if_pos h10] at h; left; exact h.symm
            · rw [if_neg h10] at h
              obtain ⟨m1, m2, _, _⟩ :=
                nextBoundary_spec orig (nextBoundary orig (i + 1) + 1) (by omega)
              rcases ih _ _ _ _ _ _ m2 h with hu | hs
              · left; exact hu
              · right; exact ⟨hs.1, by omega, hs.2.2⟩
          · rw [if_neg h9] at h
            by_cases h11 : sliceB orig i (nextBoundary orig (i + 1)) = [34]
            · rw [if_pos h11] at h
              by_cases h12 : hashes = 0
              · rw [if_pos h12] at h; cases h; right; exact ⟨rfl, by omega, n2⟩
              · rw [if_neg h12] at h
                rcases ih _ _ _ _ _ _ n2 h with hu | hs
                · left; exact hu
                · right; exact ⟨hs.1, by omega, hs.2.2⟩
            · rw [if_neg h11] at h
              rcases ih _ _ _ _ _ _ n2 h with hu | hs
              · left; exact hu
              · right; exact ⟨hs.1, by omega, hs.2.2⟩
    · rw [if_neg h1] at h
      by_cases h0 : fC = true ∧ hashes = 0
      · rw [if_pos h0] at h; cases h; right; exact ⟨rfl, Nat.le_refl i, hi⟩
      · rw [if_neg h0] at h; left; exact h.symm

theorem detect_string_cases (orig : List Nat) (chr : Nat) (k : LexemeKind)
    (n : Nat) (h : detect_string orig chr = (k, n)) :
    (k, n) = UNDETECTED ∨
      ((k = LexemeKind.StringPlain ∨ k = LexemeKind.StringRaw) ∧
        chr < n ∧ n ≤ orig.length) := by
  unfold detect_string at h
  simp only at h
  by_cases h1 : orig.length < chr + 1
  · rw [if_pos h1] at h; left; exact h.symm
  · rw [if_neg h1] at h
    by_cases h2 : get_aot orig chr = 34
    · rw [if_pos h2] at h
      rcases plainLoop_cases orig _ _ _ _ h with hu | hs
      · left; exact hu
      · right; exact ⟨Or.inl hs.1, by omega, hs.2.2⟩
    · rw [if_neg h2] at h
      by_cases h3 : get_aot orig chr = 114
      · rw [if_pos h3] at h
        by_cases h4 : orig.length < chr + 3
        · rw [if_pos h4] at h; left; exact h.symm
        · rw [if_neg h4] at h
          rcases rawLoop_cases orig _ _ _ _ _ _ _ (by omega) h with hu | hs
          · left; exact hu
          · right; exact ⟨Or.inr hs.1, by omega, hs.2.2⟩
      · rw [if_neg h3] at h; left; exact h.symm

theorem categorize_identifier_kinds (s : List Nat) :
    categorize_identifier s = LexemeKind.IdentifierKeyword ∨
      categorize_identifier s = LexemeKind.IdentifierStdType ∨
      categorize_identifier s = LexemeKind.IdentifierFreeword := by
  unfold categorize_identifier
  by_cases h1 : s ∈ KEYWORDS
  · rw [if_pos h1]; exact Or.inl rfl
  · rw [if_neg h1]
    by_cases h2 : s ∈ PRIMATIVE_TYPES
    · rw [if_pos h2]; exact Or.inr (Or.inl rfl)
    · rw [if_neg h2]; exact Or.inr (Or.inr rfl)

theorem idLoop_cases (orig : List Nat) (chr : Nat) : ∀ fuel i k n,
    i ≤ orig.length → idLoop orig chr fuel i = (k, n) →
    (k = LexemeKind.IdentifierKeyword ∨ k = LexemeKind.IdentifierStdType ∨
      k = LexemeKind.IdentifierFreeword) ∧ i ≤ n ∧ n ≤ orig.length := by
  intro fuel
  induction fuel with
  | zero =>
    intro i k n hi h
    rw [idLoop] at h
    cases h
    exact ⟨categorize_identifier_kinds _, hi, Nat.le_refl _⟩
  | succ fuel ih =>
    intro i k n hi h
    rw [idLoop] at h
    simp only at h
    by_cases h1 : i < orig.length
    · rw [if_pos h1] at h
      by_cases h2 : get_aot orig i ≠ 95 ∧ ¬ isAlnumB (get_aot orig i)
      · rw [if_pos h2] at h
        cases h
        exact ⟨categorize_identifier_kinds _, Nat.le_refl i, by omega⟩
      · rw [if_neg h2] at h
        obtain ⟨a, b, c⟩ := ih (i + 1) k n (by omega) h
        exact ⟨a, by omega, c⟩
    · rw [if_neg h1] at h
      cases h
      exact ⟨categorize_identifier_kinds _, hi, Nat.le_refl _⟩

theorem detect_identifier_cases (orig : List Nat) (chr : Nat) (k : LexemeKind)
    (n : Nat) (h : detect_identifier orig chr = (k, n)) :
    (k, n) = UNDETECTED ∨
      ((k = LexemeKind.IdentifierKeyword ∨ k = LexemeKind.IdentifierStdType ∨
        k = LexemeKind.IdentifierFreeword) ∧ chr < n ∧ n ≤ orig.length) := by
  unfold detect_identifier at h
  simp only at h
  by_cases h1 : chr ≥ orig.length
  · rw [if_pos h1] at h; left; exact h.symm
  · rw [if_neg h1] at h
    by_cases h2 : ¬ get_aot orig chr = 95 ∧ ¬ isAlphaB (get_aot orig chr)
    · rw [if_pos h2] at h; left; exact h.symm
    · rw [if_neg h2] at h
      by_cases h3 : orig.length = chr + 1
      · rw [if_pos h3] at h
        by_cases h4 : get_aot orig chr = 95
        · rw [if_pos h4] at h; left; exact h.symm
        · rw [if_neg h4] at h
          cases h
          right
          exact ⟨Or.inr (Or.inr rfl), by omega, Nat.le_refl _⟩
      · rw [if_neg h3] at h
        by_cases h5 : get_aot orig (chr + 1) ≠ 95 ∧ ¬ isAlnumB (get_aot orig (chr + 1))
        · rw [if_pos h5] at h
          by_cases h6 : get_aot orig chr = 95
          · rw [if_pos h6] at h; left; exact h.symm
          · rw [if_neg h6] at h
            cases h
            right
            exact ⟨Or.inr (Or.inr rfl), by omega, by omega⟩
        · rw [if_neg h5] at h
          obtain ⟨a, b, c⟩ := idLoop_cases orig chr _ _ _ _ (by omega) h
          right
          exact ⟨a, by omega, c⟩

theorem binLoop_cases (orig : List Nat) : ∀ fuel i hd k n,
    i ≤ orig.length → binLoop orig fuel i hd = (k, n) →
    (k, n) = UNDETECTED ∨
      (k = LexemeKind.NumberBinary ∧ i ≤ n ∧ n ≤ orig.length) := by
  intro fuel
  induction fuel with
  | zero =>
    intro i hd k n hi h
    rw [binLoop] at h
    by_cases h0 : hd = true
    · rw [if_pos h0] at h; cases h; right; exact ⟨rfl, hi, Nat.le_refl _⟩
    · rw [if_neg h0] at h; left; exact h.symm
  | succ fuel ih =>
    intro i hd k n hi h
    rw [binLoop] at h
    simp only at h
    by_cases h1 : i < orig.length
    · rw [if_pos h1] at h
      by_cases h2 : get_aot orig i = 95
      · rw [if_pos h2] at h
        rcases ih _ _ _ _ (by omega) h with hu | hs
        · left; exact hu
        · right; exact ⟨hs.1, by omega, hs.2.2⟩
      · rw [if_neg h2] at h
        by_cases h3 : get_aot orig i = 48 ∨ get_aot orig i = 49
        · rw [if_pos h3] at h
          rcases ih _ _ _ _ (by omega) h with hu | hs
          · left; exact hu
          · right; exact ⟨hs.1, by omega, hs.2.2⟩
        · rw [if_neg h3] at h
          by_cases h4 : (48 ≤ get_aot orig i ∧ get_aot orig i ≤ 57) ∨ get_aot orig i = 46
          · rw [if_pos h4] at h; left; exact h.symm
          · rw [if_neg h4] at h
            by_cases h5 : hd = true
            · rw [if_pos h5] at h; cases h; right; exact ⟨rfl, Nat.le_refl i, by omega⟩
            · rw [if_neg h5] at h; left; exact h.symm
    · rw [if_neg h1] at h
      by_cases h5 : hd = true
      · rw [if_pos h5] at h; cases h; right; exact ⟨rfl, hi, Nat.le_refl _⟩
      · rw [if_neg h5] at h; left; exact h.symm

theorem hexLoop_cases (orig : List Nat) : ∀ fuel i hd k n,
    i ≤ orig.length → hexLoop orig fuel i hd = (k, n) →
    (k, n) = UNDETECTED ∨
      (k = LexemeKind.NumberHex ∧ i ≤ n ∧ n ≤ orig.length) := by
  intro fuel
  induction fuel with
  | zero =>
    intro i hd k n hi h
    rw [hexLoop] at h
    by_cases h0 : hd = true
    · rw [if_pos h0] at h; cases h; right; exact ⟨rfl, hi, Nat.le_refl _⟩
    · rw [if_neg h0] at h; left; exact h.symm
  | succ fuel ih =>
    intro i hd k n hi h
    rw [hexLoop] at h
    simp only at h
    by_cases h1 : i < orig.length
    · rw [if_pos h1] at h
      by_cases h2 : get_aot orig i = 95
      · rw [if_pos h2] at h
        rcases ih _ _ _ _ (by omega) h with hu | hs
        · left; exact hu
        · right; exact ⟨hs.1, by omega, hs.2.2⟩
      · rw [if_neg h2] at h
        by_cases h3 : isHexDigitB (get_aot orig i)
        · rw [if_pos h3] at h
          rcases ih _ _ _ _ (by omega) h with hu | hs
          · left; exact hu
          · right; exact ⟨hs.1, by omega, hs.2.2⟩
        · rw [if_neg h3] at h
          by_cases h4 : get_aot orig i = 46
          · rw [if_pos h4] at h; left; exact h.symm
          · rw [if_neg h4] at h
            by_cases h5 : hd = true
            · rw [if_pos h5] at h; cases h; right; exact ⟨rfl, Nat.le_refl i, by omega⟩
            · rw [if_neg h5] at h; left; exact h.symm
    · rw [if_neg h1] at h
      by_cases h5 : hd = true
      · rw [if_pos h5] at h; cases h; right; exact ⟨rfl, hi, Nat.le_refl _⟩
      · rw [if_neg h5] at h; left; exact h.symm

theorem octLoop_cases (orig : List Nat) : ∀ fuel i hd k n,
    i ≤ orig.length → octLoop orig fuel i hd = (k, n) →
    (k, n) = UNDETECTED ∨
      (k = LexemeKind.NumberOctal ∧ i ≤ n ∧ n ≤ orig.length) := by
  intro fuel
  induction fuel with
  | zero =>
    intro i hd k n hi h
    rw [octLoop] at h
    by_cases h0 : hd = true
    · rw [if_pos h0] at h; cases h; right; exact ⟨rfl, hi, Nat.le_refl _⟩
    · rw [if_neg h0] at h; left; exact h.symm
  | succ fuel ih =>
    intro i hd k n hi h
    rw [octLoop] at h
    simp only at h
    by_cases h1 : i < orig.length
    · rw [if_pos h1] at h
      by_cases h2 : get_aot orig i = 95
      · rw [if_pos h2] at h
        rcases ih _ _ _ _ (by omega) h with hu | hs
        · left; exact hu
        · right; exact ⟨hs.1, by omega, hs.2.2⟩
      · rw [if_neg h2] at h
        by_cases h3 : 48 ≤ get_aot orig i ∧ get_aot orig i ≤ 55
        · rw [if_pos h3] at h
          rcases ih _ _ _ _ (by omega) h with hu | hs
          · left; exact hu
          · right; exact ⟨hs.1, by omega, hs.2.2⟩
        · rw [if_neg h3] at h
          by_cases h4 : get_aot orig i = 46
          · rw [if_pos h4] at h; left; exact h.symm
          · rw [if_neg h4] at h
            by_cases h5 : hd = true
            · rw [if_pos h5] at h; cases h; right; exact ⟨rfl, Nat.le_refl i, by omega⟩
            · rw [if_neg h5] at h; left; exact h.symm
    · rw [if_neg h1] at h
      by_cases h5 : hd = true
      · rw [if_pos h5] at h; cases h; right; exact ⟨rfl, hi, Nat.le_refl _⟩
      · rw [if_neg h5] at h; left; exact h.symm

theorem decLoop_cases (orig : List Nat) : ∀ fuel i hd he pd pe peu ps k n,
    i ≤ orig.length → decLoop orig fuel i hd he pd pe peu ps = (k, n) →
    (k, n) = UNDETECTED ∨
      (k = LexemeKind.NumberDecimal ∧ i ≤ n ∧ n ≤ orig.length) := by
  intro fuel
  induction fuel with
  | zero =>
    intro i hd he pd pe peu ps k n hi h
    rw [decLoop] at h
    by_cases h0 : orig.length = pe ∨ orig.length = ps ∨ orig.length = peu
    · rw [if_pos h0] at h; left; exact h.symm
    · rw [if_neg h0] at h; cases h; right; exact ⟨rfl, hi, Nat.le_refl _⟩
  | succ fuel ih =>
    intro i hd he pd pe peu ps k n hi h
    rw [decLoop] at h
    simp only at h
    by_cases h1 : i < orig.length
    · rw [if_pos h1] at h
      by_cases h2 : get_aot orig i = 95
      · rw [if_pos h2] at h
        by_cases h3 : hd = true ∧ pd = i
        · rw [if_pos h3] at h; left; exact h.symm
        · rw [if_neg h3] at h
          by_cases h4 : he = true ∧ pe = i
          · rw [if_pos h4] at h
            rcases ih _ _ _ _ _ _ _ _ _ (by omega) h with hu | hs
            · left; exact hu
            · right; exact ⟨hs.1, by omega, hs.2.2⟩
          · rw [if_neg h4] at h
            rcases ih _ _ _ _ _ _ _ _ _ (by omega) h with hu | hs
            · left; exact hu
            · right; exact ⟨hs.1, by omega, hs.2.2⟩
      · rw [if_neg h2] at h
        by_cases h5 : he = true ∧ pe = i ∧ (get_aot orig i = 43 ∨ get_aot orig i = 45)
        · rw [if_pos h5] at h
          rcases ih _ _ _ _ _ _ _ _ _ (by omega) h with hu | hs
          · left; exact hu
          · right; exact ⟨hs.1, by omega, hs.2.2⟩
        · rw [if_neg h5] at h
          by_cases h6 : ¬ hd = true ∧ get_aot orig i = 46
          · rw [if_pos h6] at h
            by_cases h7 : he = true
            · rw [if_pos h7] at h; left; exact h.symm
            · rw [if_neg h7] at h
              rcases ih _ _ _ _ _ _ _ _ _ (by omega) h with hu | hs
              · left; exact hu
              · right; exact ⟨hs.1, by omega, hs.2.2⟩
          · rw [if_neg h6] at h
            by_cases h8 : ¬ he = true ∧ (get_aot orig i = 101 ∨ get_aot orig i = 69)
            · rw [if_pos h8] at h
              rcases ih _ _ _ _ _ _ _ _ _ (by omega) h with hu | hs
              · left; exact hu
              · right; exact ⟨hs.1, by omega, hs.2.2⟩
            · rw [if_neg h8] at h
              by_cases h9 : get_aot orig i < 48 ∨ get_aot orig i > 57
              · rw [if_pos h9] at h
                by_cases h10 : i = pe ∨ i = ps ∨ i = peu
                · rw [if_pos h10] at h; left; exact h.symm
                · rw [if_neg h10] at h
                  cases h
                  right
                  exact ⟨rfl, Nat.le_refl i, by omega⟩
              · rw [if_neg h9] at h
                rcases ih _ _ _ _ _ _ _ _ _ (by omega) h with hu | hs
                · left; exact hu
                · right; exact ⟨hs.1, by omega, hs.2.2⟩
    · rw [if_neg h1] at h
      by_cases h0 : orig.length = pe ∨ orig.length = ps ∨ orig.length = peu
      · rw [if_pos h0] at h; left; exact h.symm
      · rw [if_neg h0] at h; cases h; right; exact ⟨rfl, hi, Nat.le_refl _⟩

theorem detect_number_cases (orig : List Nat) (chr : Nat) (k : LexemeKind)
    (n : Nat) (h : detect_number orig chr = (k, n)) :
    (k, n) = UNDETECTED ∨
      ((k = LexemeKind.NumberBinary ∨ k = LexemeKind.NumberHex ∨
        k = LexemeKind.NumberOctal ∨ k = LexemeKind.NumberDecimal) ∧
        chr < n ∧ n ≤ orig.length) := by
  unfold detect_number at h
  simp only at h
  by_cases h1 : chr ≥ orig.length
  · rw [if_pos h1] at h; left; exact h.symm
  · rw [if_neg h1] at h
    by_cases h2 : get_aot orig chr < 48 ∨ get_aot orig chr > 57
    · rw [if_pos h2] at h; left; exact h.symm
    · rw [if_neg h2] at h
      by_cases h3 : orig.length = chr + 1
      · rw [if_pos h3] at h
        cases h
        right
        exact ⟨Or.inr (Or.inr (Or.inr rfl)), by omega, Nat.le_refl _⟩
      · rw [if_neg h3] at h
        by_cases h4 : get_aot orig chr ≠ 48
        · rw [if_pos h4] at h
          rcases decLoop_cases orig _ _ _ _ _ _ _ _ _ _ (by omega) h with hu | hs
          · left; exact hu
          · right; exact ⟨Or.inr (Or.inr (Or.inr hs.1)), by omega, hs.2.2⟩
        · rw [if_neg h4] at h
          by_cases h5 : get_aot orig (chr + 1) = 98
          · rw [if_pos h5] at h
            rcases binLoop_cases orig _ _ _ _ _ (by omega) h with hu | hs
            · left; exact hu
            · right; exact ⟨Or.inl hs.1, by omega, hs.2.2⟩
          · rw [if_neg h5] at h
            by_cases h6 : get_aot orig (chr + 1) = 120
            · rw [if_pos h6] at h
              rcases hexLoop_cases orig _ _ _ _ _ (by omega) h with hu | hs
              · left; exact hu
              · right; exact ⟨Or.inr (Or.inl hs.1), by omega, hs.2.2⟩
            · rw [if_neg h6] at h
              by_cases h7 : get_aot orig (chr + 1) = 111
              · rw [if_pos h7] at h
                rcases octLoop_cases orig _ _ _ _ _ (by omega) h with hu | hs
                · left; exact hu
                · right; exact ⟨Or.inr (Or.inr (Or.inl hs.1)), by omega, hs.2.2⟩
              · rw [if_neg h7] at h
                rcases decLoop_cases orig _ _ _ _ _ _ _ _ _ _ (by omega) h with hu | hs
                · left; exact hu
                · right; exact ⟨Or.inr (Or.inr (Or.inr hs.1)), by omega, hs.2.2⟩

theorem detect_punctuation_cases (orig : List Nat) (chr : Nat)
    (k : LexemeKind) (n : Nat) (h : detect_punctuation orig chr = (k, n)) :
    (k, n) = UNDETECTED ∨
      (k = LexemeKind.Punctuation ∧ chr < n ∧ n ≤ orig.length) := by
  unfold detect_punctuation at h
  simp only at h
  by_cases h1 : chr ≥ orig.length
  · rw [if_pos h1] at h; left; exact h.symm
  · rw [if_neg h1] at h
    by_cases h2 : (strGet orig chr (chr + 1)).getD [126] ∉ PUNCTUATION_1
    · rw [if_pos h2] at h; left; exact h.symm
    · rw [if_neg h2] at h
      by_cases h3 : orig.length = chr + 1
      · rw [if_pos h3] at h; cases h; right; exact ⟨rfl, by omega, Nat.le_refl _⟩
      · rw [if_neg h3] at h
        by_cases h4 : (strGet orig chr (chr + 2)).getD [126] ∉ PUNCTUATION_2
        · rw [if_pos h4] at h; cases h; right; exact ⟨rfl, by omega, by omega⟩
        · rw [if_neg h4] at h
          by_cases h5 : orig.length = chr + 2
          · rw [if_pos h5] at h; cases h; right; exact ⟨rfl, by omega, Nat.le_refl _⟩
          · rw [if_neg h5] at h
            have hlen2 : chr + 2 ≤ orig.length := by
              rcases Nat.lt_or_ge (orig.length) (chr + 2) with hc | hc
              · exfalso
                apply h4
                unfold strGet
                rw [if_neg (by omega)]
                intro hmem
                revert hmem
                decide
              · exact hc
            by_cases h6 : (strGet orig chr (chr + 3)).getD [126] ∉ PUNCTUATION_3
            · rw [if_pos h6] at h; cases h; right; exact ⟨rfl, by omega, by omega⟩
            · rw [if_neg h6] at h
              cases h
              right
              refine ⟨rfl, by omega, ?_⟩
              rcases Nat.lt_or_ge (orig.length) (chr + 3) with hc | hc
              · exfalso
                apply h6
                unfold strGet
                rw [if_neg (by omega)]
                intro hmem
                revert hmem
                decide
              · exact hc

/-- The kinds that a successful detector can produce. -/
def detectorKinds : List LexemeKind :=
  [LexemeKind.CharacterPlain, LexemeKind.CharacterHex, LexemeKind.CharacterUnicode,
   LexemeKind.CommentInline, LexemeKind.CommentMultiline,
   LexemeKind.StringPlain, LexemeKind.StringRaw,
   LexemeKind.IdentifierKeyword, LexemeKind.IdentifierStdType,
   LexemeKind.IdentifierFreeword,
   LexemeKind.NumberBinary, LexemeKind.NumberHex, LexemeKind.NumberOctal,
   LexemeKind.NumberDecimal, LexemeKind.Punctuation,
   LexemeKind.WhitespaceTrimmable]

theorem firstDetect_cases (orig : List Nat) (chr : Nat) (k : LexemeKind)
    (n : Nat) (h : firstDetect DETECTORS orig chr = (k, n)) :
    (k, n) = UNDETECTED ∨
      (k ∈ detectorKinds ∧ chr < n ∧ n ≤ orig.length) := by
  unfold DETECTORS at h
  rw [firstDetect] at h
  by_cases c1 : (detect_character orig chr).1 = LexemeKind.Undetected
  · rw [if_pos c1] at h
    rw [firstDetect] at h
    by_cases c2 : (detect_comment orig chr).1 = LexemeKind.Undetected
    · rw [if_pos c2] at h
      rw [firstDetect] at h
      by_cases c3 : (detect_string orig chr).1 = LexemeKind.Undetected
      · rw [if_pos c3] at h
        rw [firstDetect] at h
        by_cases c4 : (detect_identifier orig chr).1 = LexemeKind.Undetected
        · rw [if_pos c4] at h
          rw [firstDetect] at h
          by_cases c5 : (detect_number orig chr).1 = LexemeKind.Undetected
          · rw [if_pos c5] at h
            rw [firstDetect] at h
            by_cases c6 : (detect_punctuation orig chr).1 = LexemeKind.Undetected
            · rw [if_pos c6] at h
              rw [firstDetect] at h
              by_cases c7 : (detect_whitespace orig chr).1 = LexemeKind.Undetected
              · rw [if_pos c7] at h
                rw [firstDetect] at h
                left; exact h.symm
              · rw [if_neg c7] at h
                have hw := detect_whitespace_progress orig chr c7
                rcases detect_whitespace_kinds orig chr with hk | hk
                · exact absurd hk c7
                · right
                  have hk2 : k = (detect_whitespace orig chr).1 := by rw [h]
                  have hn2 : n = (detect_whitespace orig chr).2 := by rw [h]
                  subst hk2
                  subst hn2
                  rw [hk]
                  exact ⟨by decide, hw⟩
            · rw [if_neg c6] at h
              rcases detect_punctuation_cases orig chr k n (by rw [← h]) with hu | hs
              · exfalso
                apply c6
                rw [h]
                exact congrArg Prod.fst hu
              · right
                refine ⟨?_, hs.2⟩
                rw [hs.1]
                decide
          · rw [if_neg c5] at h
            rcases detect_number_cases orig chr k n (by rw [← h]) with hu | hs
            · exfalso
              apply c5
              rw [h]
              exact congrArg Prod.fst hu
            · right
              refine ⟨?_, hs.2⟩
              rcases hs.1 with hk | hk | hk | hk <;> rw [hk] <;> decide
        · rw [if_neg c4] at h
          rcases detect_identifier_cases orig chr k n (by rw [← h]) with hu | hs
          · exfalso
            apply c4
            rw [h]
            exact congrArg Prod.fst hu
          · right
            refine ⟨?_, hs.2⟩
            rcases hs.1 with hk | hk | hk <;> rw [hk] <;> decide
      · rw [if_neg c3] at h
        rcases detect_string_cases orig chr k n (by rw [← h]) with hu | hs
        · exfalso
          apply c3
          rw [h]
          exact congrArg Prod.fst hu
        · right
          refine ⟨?_, hs.2⟩
          rcases hs.1 with hk | hk <;> rw [hk] <;> decide
    · rw [if_neg c2] at h
      rcases detect_comment_cases orig chr k n (by rw [← h]) with hu | hs
      · exfalso
        apply c2
        rw [h]
        exact congrArg Prod.fst hu
      · right
        refine ⟨?_, hs.2⟩
        rcases hs.1 with hk | hk <;> rw [hk] <;> decide
  · rw [if_neg c1] at h
    rcases detect_character_cases orig chr k n (by rw [← h]) with hu | hs
    · exfalso
      apply c1
      rw [h]
      exact congrArg Prod.fst hu
    · right
      refine ⟨?_, hs.2⟩
      rcases hs.1 with hk | hk | hk <;> rw [hk] <;> decide

/-! ## The tiling invariant of the scan loop -/

/-- `chainFrom orig u L`: the lexemes `L` tile the input from offset `u` to
the end and close with the sentinel: each lexeme starts where the previous
one ended, carries the corresponding slice of the input, and the final
lexeme is the `<EOI>` sentinel at offset `orig.length`. -/
def chainFrom (orig : List Nat) : Nat → List Lexeme → Prop
  | _, [] => False
  | u, [lx] => u = orig.length ∧ lx.kind = LexemeKind.WhitespaceTrimmable ∧
      lx.chr = u ∧ lx.snippet = eoiBytes
  | u, lx :: lx2 :: rest => lx.chr = u ∧ ∃ v, u < v ∧ v ≤ orig.length ∧
      lx.snippet = sliceB orig u v ∧ chainFrom orig v (lx2 :: rest)

theorem chainFrom_head (orig : List Nat) (u : Nat) (L : List Lexeme)
    (h : chainFrom orig u L) : ∃ lx L2, L = lx :: L2 ∧ lx.chr = u := by
  match L with
  | [] => exact absurd h (by rw [chainFrom]; exact not_false)
  | [lx] => exact ⟨lx, [], rfl, h.2.2.1⟩
  | lx :: lx2 :: rest => exact ⟨lx, lx2 :: rest, rfl, h.1⟩

theorem chainFrom_cons (orig : List Nat) (u v : Nat) (lx : Lexeme)
    (L : List Lexeme) (h1 : lx.chr = u) (h2 : u < v) (h3 : v ≤ orig.length)
    (h4 : lx.snippet = sliceB orig u v) (h5 : chainFrom orig v L) :
    chainFrom orig u (lx :: L) := by
  obtain ⟨lx2, L2, rfl, _⟩ := chainFrom_head orig v L h5
  exact ⟨h1, v, h2, h3, h4, h5⟩

theorem chainFrom_sentinel (orig : List Nat) (u : Nat) (h : u = orig.length) :
    chainFrom orig u [⟨LexemeKind.WhitespaceTrimmable, u, eoiBytes⟩] :=
  ⟨h, rfl, rfl, rfl⟩

theorem lexFinish_chain (orig : List Nat) (chr unident : Nat)
    (h1 : unident ≤ chr) (h2 : chr = orig.length) :
    chainFrom orig unident (lexFinish orig chr unident) := by
  unfold lexFinish
  by_cases hne : unident ≠ chr
  · rw [if_pos hne]
    refine chainFrom_cons orig unident chr _ _ rfl (by omega) (by omega) rfl ?_
    exact chainFrom_sentinel orig chr h2
  · rw [if_neg hne]
    simp only [List.nil_append]
    have : unident = chr := by omega
    subst this
    exact chainFrom_sentinel orig unident h2

theorem lexLoop_chain (orig : List Nat) : ∀ fuel chr unident,
    unident ≤ chr → chr ≤ orig.length → orig.length - chr < fuel →
    chainFrom orig unident (lexLoop orig fuel chr unident) := by
  intro fuel
  induction fuel with
  | zero => intro chr unident _ _ hf; exact absurd hf (Nat.not_lt_zero _)
  | succ fuel ih =>
    intro chr unident hu hc hf
    rw [lexLoop]
    simp only
    by_cases h1 : chr < orig.length
    · rw [if_pos h1]
      by_cases h2 : is_char_boundary orig chr
      · rw [if_pos h2]
        by_cases h3 : (firstDetect DETECTORS orig chr).1 ≠ LexemeKind.Undetected
        · rw [if_pos h3]
          have hfd := firstDetect_cases orig chr
            (firstDetect DETECTORS orig chr).1 (firstDetect DETECTORS orig chr).2 rfl
          rcases hfd with hu' | hs
          · exfalso
            apply h3
            exact congrArg Prod.fst hu'
          · obtain ⟨_, hlt, hle⟩ := hs
            have hrest := ih (firstDetect DETECTORS orig chr).2
              (firstDetect DETECTORS orig chr).2 (Nat.le_refl _) hle (by omega)
            by_cases h4 : unident ≠ chr
            · rw [if_pos h4]
              simp only [List.cons_append, List.nil_append]
              refine chainFrom_cons orig unident chr _ _ rfl (by omega) (by omega) rfl ?_
              exact chainFrom_cons orig chr _ _ _ rfl hlt hle rfl hrest
            · rw [if_neg h4]
              simp only [List.nil_append]
              have : unident = chr := by omega
              subst this
              exact chainFrom_cons orig unident _ _ _ rfl hlt hle rfl hrest
        · rw [if_neg h3]
          exact ih (chr + 1) unident (by omega) (by omega) (by omega)
      · rw [if_neg h2]
        exact ih (chr + 1) unident (by omega) (by omega) (by omega)
    · rw [if_neg h1]
      exact lexFinish_chain orig chr unident hu (by omega)

/-- The result of `lexemize` tiles the whole input starting at offset 0. -/
theorem lexemize_chain (orig : List Nat) :
    chainFrom orig 0 (lexemize orig).lexemes :=
  lexLoop_chain orig (orig.length + 1) 0 0 (Nat.le_refl 0) (Nat.zero_le _) (by omega)

theorem chainFrom_le (orig : List Nat) (L : List Lexeme) : ∀ u,
    chainFrom orig u L → u ≤ orig.length := by
  match L with
  | [] => intro u h; exact absurd h (by rw [chainFrom]; exact not_false)
  | [lx] => intro u h; exact Nat.le_of_eq h.1
  | lx :: lx2 :: rest =>
    intro u h
    obtain ⟨_, v, h2, h3, _, _⟩ := h
    omega

theorem chainFrom_last (orig : List Nat) (L : List Lexeme) : ∀ u,
    chainFrom orig u L →
    L.getLast? = some ⟨LexemeKind.WhitespaceTrimmable, orig.length, eoiBytes⟩ := by
  induction L with
  | nil => intro u h; exact absurd h (by rw [chainFrom]; exact not_false)
  | cons lx L2 ih =>
    intro u h
    match L2 with
    | [] =>
      obtain ⟨h1, h2, h3, h4⟩ := h
      have : lx = ⟨LexemeKind.WhitespaceTrimmable, orig.length, eoiBytes⟩ := by
        cases lx
        simp only at h2 h3 h4
        rw [h2, h3, h4, h1]
      rw [this]
      rfl
    | lx2 :: rest =>
      obtain ⟨h1, v, h2, h3, h4, h5⟩ := h
      have := ih v h5
      rw [List.getLast?_cons_cons]
      exact this

theorem chainFrom_join (orig : List Nat) (L : List Lexeme) : ∀ u,
    chainFrom orig u L →
    (L.dropLast.map Lexeme.snippet).flatten = sliceB orig u orig.length := by
  induction L with
  | nil => intro u h; exact absurd h (by rw [chainFrom]; exact not_false)
  | cons lx L2 ih =>
    intro u h
    match L2 with
    | [] =>
      obtain ⟨h1, _, _, _⟩ := h
      simp [sliceB, h1]
    | lx2 :: rest =>
      obtain ⟨h1, v, h2, h3, h4, h5⟩ := h
      have hrec := ih v h5
      have : (lx :: lx2 :: rest).dropLast = lx :: (lx2 :: rest).dropLast := by
        rfl
      rw [this]
      simp only [List.map_cons, List.flatten_cons]
      rw [hrec, h4]
      exact sliceB_append orig u v orig.length (by omega) h3

theorem chainFrom_chr_lt (orig : List Nat) (L : List Lexeme) : ∀ u,
    chainFrom orig u L → ∀ i, (hi : i + 1 < L.length) →
    L[i].chr < orig.length := by
  induction L with
  | nil => intro u h; exact absurd h (by rw [chainFrom]; exact not_false)
  | cons lx L2 ih =>
    intro u h i hi
    match L2, h with
    | lx2 :: rest, h =>
      obtain ⟨h1, v, h2, h3, h4, h5⟩ := h
      match i with
      | 0 =>
        simp only [List.getElem_cons_zero]
        omega
      | i + 1 =>
        simp only [List.getElem_cons_succ]
        exact ih v h5 i (by simpa using hi)

theorem chainFrom_adjacent (orig : List Nat) (L : List Lexeme) : ∀ u,
    chainFrom orig u L → ∀ i, (hi : i + 1 < L.length) →
    L[i].chr + L[i].snippet.length = L[i + 1].chr ∧
      L[i].snippet = sliceB orig (L[i].chr) (L[i + 1].chr) := by
  induction L with
  | nil => intro u h; exact absurd h (by rw [chainFrom]; exact not_false)
  | cons lx L2 ih =>
    intro u h i hi
    match L2, h with
    | lx2 :: rest, h =>
      obtain ⟨h1, v, h2, h3, h4, h5⟩ := h
      match i with
      | 0 =>
        have hchr2 : lx2.chr = v := by
          obtain ⟨lxh, Lh, heq, hc⟩ := chainFrom_head orig v (lx2 :: rest) h5
          cases heq
          exact hc
        simp only [List.getElem_cons_zero, List.getElem_cons_succ]
        have hlen : lx.snippet.length = v - u := by
          rw [h4, sliceB_length]
          omega
        constructor
        · rw [hlen, h1, hchr2]
          omega
        · rw [h4, h1, hchr2]
      | i + 1 =>
        simp only [List.getElem_cons_succ]
        exact ih v h5 i (by simpa using hi)

/-! ## Claim theorems -/

/-- C1: for every input, the emitted lexemes tile the input: the result is
non-empty and its first lexeme starts at offset 0; each lexeme's snippet is
exactly the input bytes from its start offset to the next lexeme's start
offset (so `end(i) = start(i+1)`); and concatenating the snippets of all
lexemes before the final sentinel reproduces the input byte for byte. -/
theorem c1_tiling (orig : List Nat) :
    (∃ lx L2, (lexemize orig).lexemes = lx :: L2 ∧ lx.chr = 0) ∧
    (∀ i, (hi : i + 1 < (lexemize orig).lexemes.length) →
      (lexemize orig).lexemes[i].chr + (lexemize orig).lexemes[i].snippet.length =
        (lexemize orig).lexemes[i + 1].chr ∧
      (lexemize orig).lexemes[i].snippet =
        sliceB orig ((lexemize orig).lexemes[i].chr)
          ((lexemize orig).lexemes[i + 1].chr)) ∧
    ((lexemize orig).lexemes.dropLast.map Lexeme.snippet).flatten = orig := by
  have hch := lexemize_chain orig
  refine ⟨?_, ?_, ?_⟩
  · obtain ⟨lx, L2, he, hc⟩ := chainFrom_head orig 0 _ hch
    exact ⟨lx, L2, he, hc⟩
  · exact chainFrom_adjacent orig _ 0 hch
  · rw [chainFrom_join orig _ 0 hch]
    exact sliceB_full orig

/-- Witness for C1 at the concrete input `"a b"`. -/
theorem c1_tiling_witness :
    ((lexemize (strBytes "a b")).lexemes[0].chr +
        (lexemize (strBytes "a b")).lexemes[0].snippet.length =
      (lexemize (strBytes "a b")).lexemes[1].chr) ∧
    ((lexemize (strBytes "a b")).lexemes.dropLast.map Lexeme.snippet).flatten =
      strBytes "a b" := by
  refine ⟨?_, (c1_tiling (strBytes "a b")).2.2⟩
  exact ((c1_tiling (strBytes "a b")).2.1 0 (by decide)).1

/-- C2: the result always ends with exactly one sentinel lexeme: kind
`WhitespaceTrimmable`, snippet `"<EOI>"`, start offset `orig.length`; every
other lexeme starts strictly before `orig.length`. -/
theorem c2_sentinel (orig : List Nat) :
    (lexemize orig).lexemes ≠ [] ∧
    (lexemize orig).lexemes.getLast? =
      some ⟨LexemeKind.WhitespaceTrimmable, orig.length, strBytes "<EOI>"⟩ ∧
    (∀ i, (hi : i + 1 < (lexemize orig).lexemes.length) →
      (lexemize orig).lexemes[i].chr < orig.length) := by
  have hch := lexemize_chain orig
  refine ⟨?_, chainFrom_last orig _ 0 hch, chainFrom_chr_lt orig _ 0 hch⟩
  obtain ⟨lx, L2, he, _⟩ := chainFrom_head orig 0 _ hch
  rw [he]
  exact List.cons_ne_nil lx L2

/-- Witness for C2 at the concrete input `"ab"`. -/
theorem c2_sentinel_witness :
    (lexemize (strBytes "ab")).lexemes.getLast? =
      some ⟨LexemeKind.WhitespaceTrimmable, (strBytes "ab").length, strBytes "<EOI>"⟩ ∧
    (lexemize (strBytes "ab")).lexemes[0].chr < (strBytes "ab").length :=
  ⟨(c2_sentinel (strBytes "ab")).2.1,
   (c2_sentinel (strBytes "ab")).2.2 0 (by decide)⟩

theorem lexFinish_kinds (orig : List Nat) (chr unident : Nat) (lx : Lexeme)
    (h : lx ∈ lexFinish orig chr unident) :
    lx.kind ∈ LexemeKind.Unidentifiable :: detectorKinds := by
  unfold lexFinish at h
  by_cases hne : unident ≠ chr
  · rw [if_pos hne] at h
    simp only [List.cons_append, List.nil_append, List.mem_cons,
      List.not_mem_nil, or_false] at h
    rcases h with h | h
    · rw [h]; exact List.mem_cons_self _ _
    · rw [h]
      exact List.mem_cons_of_mem _
        (show LexemeKind.WhitespaceTrimmable ∈ detectorKinds by decide)
  · rw [if_neg hne] at h
    simp only [List.nil_append, List.mem_cons, List.not_mem_nil, or_false] at h
    rw [h]
    exact List.mem_cons_of_mem _
      (show LexemeKind.WhitespaceTrimmable ∈ detectorKinds by decide)

theorem lexLoop_kinds (orig : List Nat) : ∀ fuel chr unident lx,
    lx ∈ lexLoop orig fuel chr unident →
    lx.kind ∈ LexemeKind.Unidentifiable :: detectorKinds := by
  intro fuel
  induction fuel with
  | zero =>
    intro chr unident lx h
    rw [lexLoop] at h
    exact lexFinish_kinds orig chr unident lx h
  | succ fuel ih =>
    intro chr unident lx h
    rw [lexLoop] at h
    simp only at h
    by_cases h1 : chr < orig.length
    · rw [if_pos h1] at h
      by_cases h2 : is_char_boundary orig chr
      · rw [if_pos h2] at h
        by_cases h3 : (firstDetect DETECTORS orig chr).1 ≠ LexemeKind.Undetected
        · rw [if_pos h3] at h
          have hfd := firstDetect_cases orig chr
            (firstDetect DETECTORS orig chr).1 (firstDetect DETECTORS orig chr).2 rfl
          rcases hfd with hu | hs
          · exact absurd (congrArg Prod.fst hu) h3
          · rw [List.mem_append] at h
            rcases h with h | h
            · by_cases h4 : unident ≠ chr
              · rw [if_pos h4] at h
                simp only [List.mem_cons, List.not_mem_nil, or_false] at h
                rw [h]; exact List.mem_cons_self _ _
              · rw [if_neg h4] at h
                exact absurd h (List.not_mem_nil lx)
            · rw [List.mem_cons] at h
              rcases h with h | h
              · rw [h]
                exact List.mem_cons_of_mem _ hs.1
              · exact ih _ _ _ h
        · rw [if_neg h3] at h
          exact ih _ _ _ h
      · rw [if_neg h2] at h
        exact ih _ _ _ h
    · rw [if_neg h1] at h
      exact lexFinish_kinds orig chr unident lx h

/-- C10: no emitted lexeme is `Undetected`, none has a reserved kind, and
every emitted kind is an implemented one, `Unidentifiable`, or the
sentinel's `WhitespaceTrimmable`. -/
theorem c10_kinds (orig : List Nat) (lx : Lexeme)
    (h : lx ∈ (lexemize orig).lexemes) :
    lx.kind ≠ LexemeKind.Undetected ∧
    lx.kind ∉ [LexemeKind.CharacterByte, LexemeKind.CommentDocInline,
      LexemeKind.CommentDocMultiline, LexemeKind.IdentifierOther,
      LexemeKind.StringByte, LexemeKind.StringByteRaw, LexemeKind.Unexpected] ∧
    lx.kind ∈ LexemeKind.Unidentifiable :: detectorKinds := by
  have hm := lexLoop_kinds orig (orig.length + 1) 0 0 lx h
  refine ⟨?_, ?_, hm⟩
  · revert hm
    have : ∀ k ∈ LexemeKind.Unidentifiable :: detectorKinds,
        k ≠ LexemeKind.Undetected := by decide
    exact this lx.kind
  · revert hm
    have : ∀ k ∈ LexemeKind.Unidentifiable :: detectorKinds,
        k ∉ [LexemeKind.CharacterByte, LexemeKind.CommentDocInline,
          LexemeKind.CommentDocMultiline, LexemeKind.IdentifierOther,
          LexemeKind.StringByte, LexemeKind.StringByteRaw,
          LexemeKind.Unexpected] := by decide
    exact this lx.kind

/-- Witness for C10: the sentinel of the empty input. -/
theorem c10_kinds_witness :
    (⟨LexemeKind.WhitespaceTrimmable, 0, eoiBytes⟩ : Lexeme).kind ≠
      LexemeKind.Undetected :=
  (c10_kinds (strBytes "") ⟨LexemeKind.WhitespaceTrimmable, 0, eoiBytes⟩
    (by decide)).1

theorem lexLoop_fuel_irrel (orig : List Nat) : ∀ fuel fuel2 chr unident,
    orig.length - chr < fuel → orig.length - chr < fuel2 →
    lexLoop orig fuel chr unident = lexLoop orig fuel2 chr unident := by
  intro fuel
  induction fuel with
  | zero => intro fuel2 chr unident hf _; exact absurd hf (Nat.not_lt_zero _)
  | succ fuel ih =>
    intro fuel2 chr unident hf hf2
    match fuel2 with
    | 0 => exact absurd hf2 (Nat.not_lt_zero _)
    | fuel2 + 1 =>
      rw [lexLoop, lexLoop]
      simp only
      by_cases h1 : chr < orig.length
      · rw [if_pos h1, if_pos h1]
        by_cases h2 : is_char_boundary orig chr
        · rw [if_pos h2, if_pos h2]
          by_cases h3 : (firstDetect DETECTORS orig chr).1 ≠ LexemeKind.Undetected
          · rw [if_pos h3, if_pos h3]
            have hfd := firstDetect_cases orig chr
              (firstDetect DETECTORS orig chr).1 (firstDetect DETECTORS orig chr).2 rfl
            rcases hfd with hu | hs
            · exact absurd (congrArg Prod.fst hu) h3
            · obtain ⟨_, hlt, hle⟩ := hs
              rw [ih fuel2 (firstDetect DETECTORS orig chr).2
                (firstDetect DETECTORS orig chr).2 (by omega) (by omega)]
          · rw [if_neg h3, if_neg h3]
            exact ih fuel2 (chr + 1) unident (by omega) (by omega)
        · rw [if_neg h2, if_neg h2]
          exact ih fuel2 (chr + 1) unident (by omega) (by omega)
      · rw [if_neg h1, if_neg h1]

/-- C3: `lexemize` is total.  Whenever any of the seven detectors succeeds
(kind other than `Undetected`), its end offset is strictly greater than the
offset it was called at and at most the input length, so the scan cursor
strictly advances; consequently the scan loop's result is independent of any
sufficient fuel bound — it terminates on every input. -/
theorem c3_totality (orig : List Nat) (chr : Nat) :
    ((detect_character orig chr).1 ≠ LexemeKind.Undetected →
      chr < (detect_character orig chr).2 ∧
        (detect_character orig chr).2 ≤ orig.length) ∧
    ((detect_comment orig chr).1 ≠ LexemeKind.Undetected →
      chr < (detect_comment orig chr).2 ∧
        (detect_comment orig chr).2 ≤ orig.length) ∧
    ((detect_string orig chr).1 ≠ LexemeKind.Undetected →
      chr < (detect_string orig chr).2 ∧
        (detect_string orig chr).2 ≤ orig.length) ∧
    ((detect_identifier orig chr).1 ≠ LexemeKind.Undetected →
      chr < (detect_identifier orig chr).2 ∧
        (detect_identifier orig chr).2 ≤ orig.length) ∧
    ((detect_number orig chr).1 ≠ LexemeKind.Undetected →
      chr < (detect_number orig chr).2 ∧
        (detect_number orig chr).2 ≤ orig.length) ∧
    ((detect_punctuation orig chr).1 ≠ LexemeKind.Undetected →
      chr < (detect_punctuation orig chr).2 ∧
        (detect_punctuation orig chr).2 ≤ orig.length) ∧
    ((detect_whitespace orig chr).1 ≠ LexemeKind.Undetected →
      chr < (detect_whitespace orig chr).2 ∧
        (detect_whitespace orig chr).2 ≤ orig.length) ∧
    (∀ fuel, orig.length < fuel →
      lexLoop orig fuel 0 0 = (lexemize orig).lexemes) := by
  refine ⟨?_, ?_, ?_, ?_, ?_, ?_, detect_whitespace_progress orig chr, ?_⟩
  · intro h
    rcases detect_character_cases orig chr _ _ rfl with hu | hs
    · exact absurd (congrArg Prod.fst hu) h
    · exact hs.2
  · intro h
    rcases detect_comment_cases orig chr _ _ rfl with hu | hs
    · exact absurd (congrArg Prod.fst hu) h
    · exact hs.2
  · intro h
    rcases detect_string_cases orig chr _ _ rfl with hu | hs
    · exact absurd (congrArg Prod.fst hu) h
    · exact hs.2
  · intro h
    rcases detect_identifier_cases orig chr _ _ rfl with hu | hs
    · exact absurd (congrArg Prod.fst hu) h
    · exact hs.2
  · intro h
    rcases detect_number_cases orig chr _ _ rfl with hu | hs
    · exact absurd (congrArg Prod.fst hu) h
    · exact hs.2
  · intro h
    rcases detect_punctuation_cases orig chr _ _ rfl with hu | hs
    · exact absurd (congrArg Prod.fst hu) h
    · exact hs.2
  · intro fuel hfuel
    exact lexLoop_fuel_irrel orig fuel (orig.length + 1) 0 0 (by omega) (by omega)

/-- Witness for C3 at a concrete input and offset. -/
theorem c3_totality_witness :
    (0 < (detect_number (strBytes "12 ") 0).2 ∧
      (detect_number (strBytes "12 ") 0).2 ≤ (strBytes "12 ").length) ∧
    lexLoop (strBytes "12 ") 7 0 0 = (lexemize (strBytes "12 ")).lexemes :=
  ⟨(c3_totality (strBytes "12 ") 0).2.2.2.2.1 (by decide),
   (c3_totality (strBytes "12 ") 0).2.2.2.2.2.2.2 7 (by decide)⟩

theorem get_aot_invalid (orig : List Nat) (c : Nat)
    (h : orig.length ≤ c ∨ is_char_boundary orig c = false) :
    get_aot orig c = 126 := by
  unfold get_aot
  rcases h with h | h
  · rw [if_neg]
    intro hc
    omega
  · rw [if_neg]
    intro hc
    rw [h] at hc
    exact Bool.false_ne_true hc.2.1

theorem strGet_invalid (orig : List Nat) (a b : Nat)
    (h : orig.length ≤ a ∨ is_char_boundary orig a = false) (hab : a < b) :
    strGet orig a b = none := by
  unfold strGet
  rw [if_neg]
  intro hc
  rcases h with h | h
  · omega
  · rw [h] at hc
    exact Bool.false_ne_true hc.2.2.1

/-- C8: all seven detectors, called at an offset that is out of range or not
on a char boundary, return `(Undetected, 0)`. -/
theorem c8_invalid_offset (orig : List Nat) (chr : Nat)
    (h : orig.length ≤ chr ∨ is_char_boundary orig chr = false) :
    detect_character orig chr = UNDETECTED ∧
    detect_comment orig chr = UNDETECTED ∧
    detect_string orig chr = UNDETECTED ∧
    detect_identifier orig chr = UNDETECTED ∧
    detect_number orig chr = UNDETECTED ∧
    detect_punctuation orig chr = UNDETECTED ∧
    detect_whitespace orig chr = UNDETECTED := by
  have haot := get_aot_invalid orig chr h
  refine ⟨?_, ?_, ?_, ?_, ?_, ?_, ?_⟩
  · unfold detect_character
    simp only
    by_cases h1 : orig.length < chr + 3
    · rw [if_pos h1]
    · rw [if_neg h1, if_pos (by rw [haot]; omega)]
  · unfold detect_comment
    simp only
    by_cases h1 : orig.length < chr + 2
    · rw [if_pos h1]
    · rw [if_neg h1, if_pos (by rw [haot]; omega)]
  · unfold detect_string
    simp only
    by_cases h1 : orig.length < chr + 1
    · rw [if_pos h1]
    · rw [if_neg h1, if_neg (by rw [haot]; omega), if_neg (by rw [haot]; omega)]
  · unfold detect_identifier
    simp only
    by_cases h1 : chr ≥ orig.length
    · rw [if_pos h1]
    · rw [if_neg h1, if_pos]
      rw [haot]
      exact ⟨by omega, by unfold isAlphaB; omega⟩
  · unfold detect_number
    simp only
    by_cases h1 : chr ≥ orig.length
    · rw [if_pos h1]
    · rw [if_neg h1, if_pos (by rw [haot]; omega)]
  · unfold detect_punctuation
    simp only
    by_cases h1 : chr ≥ orig.length
    · rw [if_pos h1]
    · rw [if_neg h1, if_pos]
      have h2 : is_char_boundary orig chr = false := by
        rcases h with h | h
        · omega
        · exact h
      rw [strGet_invalid orig chr (chr + 1) (Or.inr h2) (by omega)]
      decide
  · unfold detect_whitespace
    simp only
    rw [if_pos]
    rcases h with h | h
    · exact Or.inl h
    · exact Or.inr (by rw [h]; exact Bool.false_ne_true)

/-- Witness for C8: inside the multi-byte encoding of `"€"`. -/
theorem c8_invalid_offset_witness :
    detect_string (strBytes "€") 1 = UNDETECTED ∧
      detect_number (strBytes "€") 1 = UNDETECTED :=
  ⟨(c8_invalid_offset (strBytes "€") 1 (by decide)).2.2.1,
   (c8_invalid_offset (strBytes "€") 1 (by decide)).2.2.2.2.1⟩

theorem idLoop_kind (orig : List Nat) (chr : Nat) : ∀ fuel i k n,
    idLoop orig chr fuel i = (k, n) →
    k = categorize_identifier (sliceB orig chr n) := by
  intro fuel
  induction fuel with
  | zero =>
    intro i k n h
    rw [idLoop] at h
    cases h
    rfl
  | succ fuel ih =>
    intro i k n h
    rw [idLoop] at h
    simp only at h
    by_cases h1 : i < orig.length
    · rw [if_pos h1] at h
      by_cases h2 : get_aot orig i ≠ 95 ∧ ¬ isAlnumB (get_aot orig i)
      · rw [if_pos h2] at h
        cases h
        rfl
      · rw [if_neg h2] at h
        exact ih _ _ _ h
    · rw [if_neg h1] at h
      cases h
      rfl

/-- C9: a lone `_` (not followed by an identifier-continuation character) is
`Undetected`, while a lone alphabetic character is a Freeword; a candidate of
two or more characters is classified by exact-match lookup of its slice:
`Keyword` for members of the 52-entry `KEYWORDS` table, `StdType` for members
of the 18-entry `PRIMATIVE_TYPES` table, `Freeword` otherwise. -/
theorem c9_identifier (orig : List Nat) (chr : Nat) :
    (get_aot orig chr = 95 → orig.length = chr + 1 →
      detect_identifier orig chr = UNDETECTED) ∧
    (get_aot orig chr = 95 → get_aot orig (chr + 1) ≠ 95 →
      ¬ isAlnumB (get_aot orig (chr + 1)) →
      detect_identifier orig chr = UNDETECTED) ∧
    (isAlphaB (get_aot orig chr) → orig.length = chr + 1 →
      detect_identifier orig chr = (LexemeKind.IdentifierFreeword, chr + 1)) ∧
    (isAlphaB (get_aot orig chr) → get_aot orig (chr + 1) ≠ 95 →
      ¬ isAlnumB (get_aot orig (chr + 1)) →
      detect_identifier orig chr = (LexemeKind.IdentifierFreeword, chr + 1)) ∧
    (∀ k n, detect_identifier orig chr = (k, n) →
      k ≠ LexemeKind.Undetected → chr + 2 ≤ n →
      k = categorize_identifier (sliceB orig chr n)) ∧
    KEYWORDS.length = 52 ∧ PRIMATIVE_TYPES.length = 18 ∧
    (∀ s, s ∈ KEYWORDS → categorize_identifier s = LexemeKind.IdentifierKeyword) ∧
    (∀ s, s ∈ PRIMATIVE_TYPES →
      categorize_identifier s = LexemeKind.IdentifierStdType) ∧
    (∀ s, s ∉ KEYWORDS → s ∉ PRIMATIVE_TYPES →
      categorize_identifier s = LexemeKind.IdentifierFreeword) := by
  have hchr : ∀ b, get_aot orig chr = b → b ≠ 126 → chr < orig.length := by
    intro b hb hne
    have := (get_aot_spec orig chr (by rw [hb]; exact hne)).1
    omega
  refine ⟨?_, ?_, ?_, ?_, ?_, by decide, by decide, ?_, ?_, ?_⟩
  · intro h95 hlen
    unfold detect_identifier
    simp only
    rw [if_neg (by have := hchr 95 h95 (by omega); omega)]
    rw [if_neg (by rw [h95]; intro hc; exact hc.1 rfl)]
    rw [if_pos hlen, if_pos (by rw [h95])]
  · intro h95 hne hna
    unfold detect_identifier
    simp only
    rw [if_neg (by have := hchr 95 h95 (by omega); omega)]
    rw [if_neg (by rw [h95]; intro hc; exact hc.1 rfl)]
    by_cases hlen : orig.length = chr + 1
    · rw [if_pos hlen, if_pos (by rw [h95])]
    · rw [if_neg hlen, if_pos ⟨hne, hna⟩, if_pos (by rw [h95])]
  · intro halpha hlen
    unfold detect_identifier
    simp only
    have h126 : get_aot orig chr ≠ 126 := by
      intro hc
      rw [hc] at halpha
      unfold isAlphaB at halpha
      omega
    rw [if_neg (by have := (get_aot_spec orig chr h126).1; omega)]
    rw [if_neg (by intro hc; exact hc.2 halpha)]
    rw [if_pos hlen]
    rw [if_neg (by
      intro hc
      rw [hc] at halpha
      unfold isAlphaB at halpha
      omega)]
    rw [hlen]
  · intro halpha hne hna
    unfold detect_identifier
    simp only
    have h126 : get_aot orig chr ≠ 126 := by
      intro hc
      rw [hc] at halpha
      unfold isAlphaB at halpha
      omega
    have h95 : ¬ get_aot orig chr = 95 := by
      intro hc
      rw [hc] at halpha
      unfold isAlphaB at halpha
      omega
    rw [if_neg (by have := (get_aot_spec orig chr h126).1; omega)]
    rw [if_neg (by intro hc; exact hc.2 halpha)]
    by_cases hlen : orig.length = chr + 1
    · rw [if_pos hlen, if_neg h95, hlen]
    · rw [if_neg hlen, if_pos ⟨hne, hna⟩, if_neg h95]
  · intro k n h hk hn
    unfold detect_identifier at h
    simp only at h
    by_cases h1 : chr ≥ orig.length
    · rw [if_pos h1] at h
      exact absurd (congrArg Prod.fst h).symm hk
    · rw [if_neg h1] at h
      by_cases h2 : ¬ get_aot orig chr = 95 ∧ ¬ isAlphaB (get_aot orig chr)
      · rw [if_pos h2] at h
        exact absurd (congrArg Prod.fst h).symm hk
      · rw [if_neg h2] at h
        by_cases h3 : orig.length = chr + 1
        · rw [if_pos h3] at h
          by_cases h4 : get_aot orig chr = 95
          · rw [if_pos h4] at h
            exact absurd (congrArg Prod.fst h).symm hk
          · rw [if_neg h4] at h
            have := congrArg Prod.snd h
            simp only at this
            omega
        · rw [if_neg h3] at h
          by_cases h5 : get_aot orig (chr + 1) ≠ 95 ∧
              ¬ isAlnumB (get_aot orig (chr + 1))
          · rw [if_pos h5] at h
            by_cases h6 : get_aot orig chr = 95
            · rw [if_pos h6] at h
              exact absurd (congrArg Prod.fst h).symm hk
            · rw [if_neg h6] at h
              have := congrArg Prod.snd h
              simp only at this
              omega
          · rw [if_neg h5] at h
            exact idLoop_kind orig chr _ _ _ _ h
  · intro s hs
    unfold categorize_identifier
    rw [if_pos hs]
  · intro s hs
    unfold categorize_identifier
    have hnk : s ∉ KEYWORDS := by
      revert hs
      have : ∀ t, t ∈ PRIMATIVE_TYPES → t ∉ KEYWORDS := by decide
      exact this s
    rw [if_neg hnk, if_pos hs]
  · intro s hk hp
    unfold categorize_identifier
    rw [if_neg hk, if_neg hp]

/-- Witness for C9 at concrete inputs: lone `_`, lone letter, and the
keyword `fn`. -/
theorem c9_identifier_witness :
    detect_identifier (strBytes "_") 0 = UNDETECTED ∧
    detect_identifier (strBytes "a") 0 = (LexemeKind.IdentifierFreeword, 1) ∧
    categorize_identifier (strBytes "fn") = LexemeKind.IdentifierKeyword :=
  ⟨(c9_identifier (strBytes "_") 0).1 (by decide) (by decide),
   (c9_identifier (strBytes "a") 0).2.2.1 (by decide) (by decide),
   (c9_identifier (strBytes "fn") 0).2.2.2.2.2.2.2.1 (strBytes "fn") (by decide)⟩

/-- C4 counterexample: lexemizing `0b12` does not give
`Unidentifiable@0 "0b"` then `NumberDecimal@2 "12"`, because the identifier
detector runs before the number detector and claims `b12` at offset 1. -/
theorem c4_counterexample :
    (lexemize (strBytes "0b12")).lexemes ≠
      [⟨LexemeKind.Unidentifiable, 0, strBytes "0b"⟩,
       ⟨LexemeKind.NumberDecimal, 2, strBytes "12"⟩,
       ⟨LexemeKind.WhitespaceTrimmable, 4, eoiBytes⟩] ∧
    (lexemize (strBytes "0b12")).lexemes =
      [⟨LexemeKind.Unidentifiable, 0, strBytes "0"⟩,
       ⟨LexemeKind.IdentifierFreeword, 1, strBytes "b12"⟩,
       ⟨LexemeKind.WhitespaceTrimmable, 4, eoiBytes⟩] := by
  constructor
  · decide
  · decide

/-- C4 (amended): the number detector rejects `0b12` whole (digit `2` out of
binary range), and full lexemization of `0b12` yields `Unidentifiable@0 "0"`
then `IdentifierFreeword@1 "b12"` (the identifier detector precedes the
number detector); for `0x1g` the number detector truncates at `0x1`
(end offset 3), because `g` is an unrelated stop character. -/
theorem c4_amended :
    detect_number (strBytes "0b12") 0 = UNDETECTED ∧
    (lexemize (strBytes "0b12")).lexemes =
      [⟨LexemeKind.Unidentifiable, 0, strBytes "0"⟩,
       ⟨LexemeKind.IdentifierFreeword, 1, strBytes "b12"⟩,
       ⟨LexemeKind.WhitespaceTrimmable, 4, eoiBytes⟩] ∧
    detect_number (strBytes "0x1g") 0 = (LexemeKind.NumberHex, 3) := by
  refine ⟨by decide, by decide, by decide⟩

/-- C6 counterexample: the nested-comment scenario input is 29 bytes long,
not 30, so no lexeme of its lexemization spans 30 bytes. -/
theorem c6_counterexample :
    (strBytes "/* outer /* inner */ outer */").length ≠ 30 ∧
    ∀ lx ∈ (lexemize (strBytes "/* outer /* inner */ outer */")).lexemes,
      lx.snippet.length ≠ 30 := by
  constructor
  · decide
  · decide

/-- C6 (amended): lexemizing `/* outer /* inner */ outer */` produces a
single `CommentMultiline` lexeme at offset 0 spanning the entire 29-byte
input, followed only by the sentinel; the nested `/* inner */` does not
close the outer comment. -/
theorem c6_nested_comment :
    (strBytes "/* outer /* inner */ outer */").length = 29 ∧
    (lexemize (strBytes "/* outer /* inner */ outer */")).lexemes =
      [⟨LexemeKind.CommentMultiline, 0, strBytes "/* outer /* inner */ outer */"⟩,
       ⟨LexemeKind.WhitespaceTrimmable, 29, eoiBytes⟩] := by
  refine ⟨by decide, by decide⟩

/-- C7: in raw-string detection a backslash skips the following character,
even a double quote: `r##"\z\"#` (one closing hash short, because the second
backslash skips the would-be closing quote) is `Undetected` as a whole.
In `r"\""` the backslash skips the first quote, so the literal closes only
at the second quote (end offset 5); `r#"\z\"#` is likewise rejected whole,
while `r#"\z\""#` closes (end offset 9). -/
theorem c7_raw_string_backslash :
    detect_string (strBytes "r##\"\\z\\\"#") 0 = UNDETECTED ∧
    detect_string (strBytes "r\"\\\"\"") 0 = (LexemeKind.StringRaw, 5) ∧
    detect_string (strBytes "r#\"\\z\\\"#") 0 = UNDETECTED ∧
    detect_string (strBytes "r#\"\\z\\\"\"#") 0 = (LexemeKind.StringRaw, 9) := by
  refine ⟨by decide, by decide, by decide, by decide⟩

/-! ## UTF-8 structure facts, needed to locate the first newline -/

theorem encodeChar_shape (n : Nat) :
    ∃ b bs, encodeChar n = b :: bs ∧ ¬ (128 ≤ b ∧ b < 192) ∧
      (b < 128 → bs = []) ∧ ∀ c ∈ bs, 128 ≤ c ∧ c < 192 := by
  unfold encodeChar
  by_cases h1 : n < 0x80
  · rw [if_pos h1]
    exact ⟨n, [], rfl, by omega, fun _ => rfl, by simp⟩
  · rw [if_neg h1]
    by_cases h2 : n < 0x800
    · rw [if_pos h2]
      refine ⟨0xC0 + n / 64, [0x80 + n % 64], rfl, by omega, by omega, ?_⟩
      intro c hc
      simp only [List.mem_singleton] at hc
      omega
    · rw [if_neg h2]
      by_cases h3 : n < 0x10000
      · rw [if_pos h3]
        refine ⟨0xE0 + n / 4096, [0x80 + n / 64 % 64, 0x80 + n % 64], rfl,
          by omega, by omega, ?_⟩
        intro c hc
        simp only [List.mem_cons, List.mem_singleton, List.not_mem_nil,
          or_false] at hc
        rcases hc with hc | hc <;> omega
      · rw [if_neg h3]
        refine ⟨0xF0 + n / 262144,
          [0x80 + n / 4096 % 64, 0x80 + n / 64 % 64, 0x80 + n % 64], rfl,
          by omega, by omega, ?_⟩
        intro c hc
        simp only [List.mem_cons, List.mem_singleton, List.not_mem_nil,
          or_false] at hc
        rcases hc with hc | hc | hc <;> omega

theorem bytesOfChars_cons (ch : Char) (cs : List Char) :
    bytesOfChars (ch :: cs) = encodeChar ch.toNat ++ bytesOfChars cs := by
  unfold bytesOfChars
  rw [List.map_cons, List.flatten_cons]

theorem bytesOfChars_head (cs : List Char) (c : Nat)
    (h : (bytesOfChars cs)[0]? = some c) : ¬ (128 ≤ c ∧ c < 192) := by
  cases cs with
  | nil =>
    unfold bytesOfChars at h
    simp at h
  | cons ch cs =>
    rw [bytesOfChars_cons] at h
    obtain ⟨b, bs, he, hb, _, _⟩ := encodeChar_shape ch.toNat
    rw [he] at h
    simp only [List.cons_append, List.getElem?_cons_zero, Option.some.injEq] at h
    rw [← h]
    exact hb

theorem bytesOfChars_ascii_next : ∀ (cs : List Char) (p b c : Nat),
    (bytesOfChars cs)[p]? = some b → b < 128 →
    (bytesOfChars cs)[p + 1]? = some c → ¬ (128 ≤ c ∧ c < 192) := by
  intro cs
  induction cs with
  | nil =>
    intro p b c hb _ _
    unfold bytesOfChars at hb
    simp at hb
  | cons ch cs ih =>
    intro p b c hb hba hc
    rw [bytesOfChars_cons] at hb hc
    obtain ⟨b0, bs0, he, hb0, hb0a, hbs0⟩ := encodeChar_shape ch.toNat
    have helen : 0 < (encodeChar ch.toNat).length := by rw [he]; simp
    by_cases hp : p < (encodeChar ch.toNat).length
    · rw [List.getElem?_append_left hp] at hb
      have hbp : (encodeChar ch.toNat)[p]? = some b := hb
      match hp2 : p with
      | 0 =>
        have : b = b0 := by
          rw [he] at hbp
          simp only [List.getElem?_cons_zero, Option.some.injEq] at hbp
          omega
        subst this
        have hbs_nil : bs0 = [] := hb0a hba
        have helen1 : (encodeChar ch.toNat).length = 1 := by
          rw [he, hbs_nil]
          rfl
        rw [List.getElem?_append_right (by omega)] at hc
        rw [helen1] at hc
        simp only [Nat.sub_self] at hc
        exact bytesOfChars_head cs c hc
      | q + 1 =>
        exfalso
        rw [he] at hbp
        simp only [List.getElem?_cons_succ] at hbp
        have hq : q < bs0.length := by
          have := List.getElem?_eq_some_iff.mp hbp
          exact this.1
        have hmem : b ∈ bs0 := by
          have := List.getElem?_eq_some_iff.mp hbp
          obtain ⟨hlt, hge⟩ := this
          rw [← hge]
          exact List.getElem_mem hlt
        have := hbs0 b hmem
        omega
    · rw [List.getElem?_append_right (by omega)] at hb
      rw [List.getElem?_append_right (by omega)] at hc
      have hshift : p + 1 - (encodeChar ch.toNat).length =
          (p - (encodeChar ch.toNat).length) + 1 := by omega
      rw [hshift] at hc
      exact ih _ _ _ hb hba hc

theorem boundary_of_byte (s : List Nat) (p b : Nat) (h : s.get? p = some b)
    (hb : b < 128 ∨ 192 ≤ b) : is_char_boundary s p = true := by
  unfold is_char_boundary
  by_cases hp : p = 0
  · rw [if_pos hp]
  · rw [if_neg hp, h]
    simpa using hb

theorem not_boundary_byte (s : List Nat) (q : Nat)
    (h : is_char_boundary s q = false) (hq : q ≤ s.length) :
    ∃ b, s.get? q = some b ∧ 128 ≤ b ∧ b < 192 := by
  unfold is_char_boundary at h
  by_cases hq0 : q = 0
  · rw [if_pos hq0] at h
    exact absurd h (by simp)
  · rw [if_neg hq0] at h
    rcases hg : s.get? q with _ | b
    · rw [hg] at h
      have : q = s.length := by
        have := List.get?_eq_none.mp hg
        omega
      rw [this] at h
      simp at h
    · rw [hg] at h
      simp only [decide_eq_false_iff_not] at h
      exact ⟨b, rfl, by omega, by omega⟩

theorem sliceB_one (s : List Nat) (i b : Nat) (h : s.get? i = some b) :
    sliceB s i (i + 1) = [b] := by
  unfold sliceB
  have hi : i < s.length := (List.get?_eq_some.mp h).1
  have : i + 1 - i = 1 := by omega
  rw [this]
  rcases hd : s.drop i with _ | ⟨x, xs⟩
  · exfalso
    have := congrArg List.length hd
    simp at this
    omega
  · have hx : x = b := by
      have h2 := List.getElem?_drop s i 0
      rw [Nat.add_zero, hd] at h2
      simp only [List.getElem?_cons_zero] at h2
      rw [List.get?_eq_getElem?] at h
      rw [h] at h2
      exact Option.some.injEq _ _ ▸ h2
    rw [List.take_succ_cons, List.take_zero, hx]

/-- In valid UTF-8, the position after a newline byte is a char boundary. -/
theorem newline_next_boundary (orig : List Nat) (hv : Utf8Valid orig)
    (p : Nat) (hp : orig.get? p = some 10) :
    is_char_boundary orig (p + 1) = true := by
  by_cases hlen : p + 1 < orig.length
  · rcases hg : orig.get? (p + 1) with _ | c
    · exfalso
      have := List.get?_eq_none.mp hg
      omega
    · obtain ⟨cs, rfl⟩ := hv
      have hnc := bytesOfChars_ascii_next cs p 10 c
        (by rw [← List.get?_eq_getElem?]; exact hp) (by omega)
        (by rw [← List.get?_eq_getElem?]; exact hg)
      exact boundary_of_byte _ (p + 1) c hg (by omega)
  · have hple : p < orig.length := (List.get?_eq_some.mp hp).1
    have : p + 1 = orig.length := by omega
    rw [this]
    exact is_char_boundary_length orig

theorem inlineLoop_newline (orig : List Nat) (hv : Utf8Valid orig) : ∀ fuel i,
    orig.length - i < fuel → is_char_boundary orig i = true →
    (∃ p, i ≤ p ∧ p + 1 < orig.length ∧ orig.get? p = some 10 ∧
        (∀ q, i ≤ q → q < p → orig.get? q ≠ some 10) ∧
        inlineLoop orig fuel i = p) ∨
    ((∀ q, i ≤ q → q + 1 < orig.length → orig.get? q ≠ some 10) ∧
        inlineLoop orig fuel i = orig.length) := by
  intro fuel
  induction fuel with
  | zero => intro i hf _; exact absurd hf (Nat.not_lt_zero _)
  | succ fuel ih =>
    intro i hf hbi
    have hile : i ≤ orig.length := by
      by_contra hgt
      rw [is_char_boundary_of_gt orig i (by omega)] at hbi
      exact Bool.false_ne_true hbi
    rw [inlineLoop]
    simp only
    by_cases h1 : i < orig.length - 1
    · rw [if_pos h1]
      obtain ⟨n1, n2, hbj, hmin⟩ := nextBoundary_spec orig (i + 1) (by omega)
      by_cases h2 : sliceB orig i (nextBoundary orig (i + 1)) = [10]
      · rw [if_pos h2]
        left
        exact ⟨i, Nat.le_refl i, by omega, sliceB_head orig i _ 10 h2,
          fun q hq1 hq2 => absurd hq2 (by omega), rfl⟩
      · rw [if_neg h2]
        have hne10 : orig.get? i ≠ some 10 := by
          intro hg
          have hbnext := newline_next_boundary orig hv i hg
          have hj : nextBoundary orig (i + 1) = i + 1 := by
            by_contra hne
            have := hmin (i + 1) (Nat.le_refl _) (by omega)
            rw [hbnext] at this
            exact absurd this (by decide)
          rw [hj] at h2
          exact h2 (sliceB_one orig i 10 hg)
        have hmid : ∀ q, i < q → q < nextBoundary orig (i + 1) →
            orig.get? q ≠ some 10 := by
          intro q hq1 hq2 hg
          have hb := hmin q (by omega) hq2
          obtain ⟨b, hgb, hb1, hb2⟩ := not_boundary_byte orig q hb (by omega)
          rw [hg] at hgb
          have : b = 10 := by
            have := Option.some.injEq (10 : Nat) b ▸ hgb
            omega
          omega
        rcases ih (nextBoundary orig (i + 1)) (by omega) hbj with
          ⟨p, hp1, hp2, hp3, hp4, hp5⟩ | ⟨hall, hres⟩
        · left
          refine ⟨p, by omega, hp2, hp3, ?_, hp5⟩
          intro q hq1 hq2
          rcases Nat.eq_or_lt_of_le hq1 with he | hlt
          · rw [← he]; exact hne10
          · by_cases hqj : q < nextBoundary orig (i + 1)
            · exact hmid q hlt hqj
            · exact hp4 q (by omega) hq2
        · right
          refine ⟨?_, hres⟩
          intro q hq1 hq2
          rcases Nat.eq_or_lt_of_le hq1 with he | hlt
          · rw [← he]; exact hne10
          · by_cases hqj : q < nextBoundary orig (i + 1)
            · exact hmid q hlt hqj
            · exact hall q (by omega) hq2
    · rw [if_neg h1]
      right
      exact ⟨fun q hq1 hq2 => absurd hq2 (by omega), rfl⟩

/-- C5 (amended): when the comment detector matches an inline comment, the
end offset is the byte position of the first `\n` at or after `offset + 2`
that lies strictly before the final byte of the input; when the only
newline is the final byte of the input, or there is none, the end offset is
the input length (a newline in final-byte position is thus included in the
comment's span). -/
theorem c5_inline_amended (orig : List Nat) (chr : Nat) (hv : Utf8Valid orig)
    (h : (detect_comment orig chr).1 = LexemeKind.CommentInline) :
    (∃ p, chr + 2 ≤ p ∧ p + 1 < orig.length ∧ orig.get? p = some 10 ∧
        (∀ q, chr + 2 ≤ q → q < p → orig.get? q ≠ some 10) ∧
        (detect_comment orig chr).2 = p) ∨
    ((∀ q, chr + 2 ≤ q → q + 1 < orig.length → orig.get? q ≠ some 10) ∧
        (detect_comment orig chr).2 = orig.length) := by
  have hcomb : detect_comment orig chr =
      (LexemeKind.CommentInline, inlineLoop orig (orig.length + 1) (chr + 2)) ∧
      get_aot orig (chr + 1) = 47 := by
    unfold detect_comment at h ⊢
    simp only at h ⊢
    by_cases h1 : orig.length < chr + 2
    · rw [if_pos h1] at h
      exact absurd h (show ¬ UNDETECTED.1 = LexemeKind.CommentInline by decide)
    · rw [if_neg h1] at h ⊢
      by_cases h2 : get_aot orig chr ≠ 47
      · rw [if_pos h2] at h
        exact absurd h (show ¬ UNDETECTED.1 = LexemeKind.CommentInline by decide)
      · rw [if_neg h2] at h ⊢
        by_cases h3 : get_aot orig (chr + 1) = 47
        · rw [if_pos h3]
          exact ⟨rfl, h3⟩
        · rw [if_neg h3] at h ⊢
          by_cases h4 : get_aot orig (chr + 1) = 42
          · rw [if_pos h4] at h
            exfalso
            rcases mlLoop_cases orig (orig.length + 1) (chr + 2) 0
                (mlLoop orig (orig.length + 1) (chr + 2) 0).1
                (mlLoop orig (orig.length + 1) (chr + 2) 0).2 rfl with hu | hs
            · rw [congrArg Prod.fst hu] at h
              exact absurd h
                (show ¬ UNDETECTED.1 = LexemeKind.CommentInline by decide)
            · rw [hs.1] at h
              exact absurd h (by decide)
          · rw [if_neg h4] at h
            exact absurd h (show ¬ UNDETECTED.1 = LexemeKind.CommentInline by decide)
  obtain ⟨hd, h47⟩ := hcomb
  have hb2 : is_char_boundary orig (chr + 2) = true :=
    (get_aot_spec orig (chr + 1) (by omega)).2.2.1
  rw [hd]
  exact inlineLoop_newline orig hv (orig.length + 1) (chr + 2) (by omega) hb2

/-- Witness for C5's amended statement at `"//ab\ncd"`. -/
theorem c5_inline_amended_witness :
    (∃ p, 0 + 2 ≤ p ∧ p + 1 < (strBytes "//ab\ncd").length ∧
        (strBytes "//ab\ncd").get? p = some 10 ∧
        (∀ q, 0 + 2 ≤ q → q < p → (strBytes "//ab\ncd").get? q ≠ some 10) ∧
        (detect_comment (strBytes "//ab\ncd") 0).2 = p) ∨
    ((∀ q, 0 + 2 ≤ q → q + 1 < (strBytes "//ab\ncd").length →
        (strBytes "//ab\ncd").get? q ≠ some 10) ∧
        (detect_comment (strBytes "//ab\ncd") 0).2 = (strBytes "//ab\ncd").length) :=
  c5_inline_amended (strBytes "//ab\ncd") 0 ⟨("//ab\ncd").data, rfl⟩ (by decide)

/-- C5 counterexample: for `"//\n"` the first newline at or after offset 2
sits at byte position 2, yet the detector's end offset is 3 — the final-byte
newline is included in the inline comment's span, not excluded. -/
theorem c5_counterexample :
    detect_comment (strBytes "//\n") 0 = (LexemeKind.CommentInline, 3) ∧
    (strBytes "//\n").get? 2 = some 10 ∧
    (detect_comment (strBytes "//\n") 0).2 ≠ 2 := by
  refine ⟨by decide, by decide, by decide⟩

end Op8d
